import Mathlib

/-!
# Verification of the EcoWatt inverter-telemetry firmware core

Shallow embedding of the subsystems of the `embedded-systems-engineering-phase-4`
repository that the checked claims are about, together with proofs:

* the delta/zigzag/RLE varint codec (`src/cpp/src/compression.cpp`),
* the 256-slot circular sample buffer and the poll-cycle address enumeration
  (`src/cpp/src/acquisition_scheduler.cpp`),
* the manifest / chunk-download / apply parts of the FOTA manager
  (`src/cpp-esp/src/fota_manager.cpp`),
* the remote-config register parsing (`src/cpp-esp/src/remote_config_handler.cpp`).

Machine integers are modelled as `Nat`/`Int` with explicit reduction
modulo `2^w` where the C++ narrows or wraps; `double` fields are modelled
as exact rationals; fallible C++ code (exceptions, out-of-range
`std::vector` access) is modelled with `Except`.
-/

namespace EcoWatt

/-! ## Data model

`AcquisitionSample` from `types.hpp` (per spec §3: `timestamp` is a
monotonic clock instant whose tick count is an `int64`, `register_address`
is `u8`, `raw_value` is `i32`, `scaled_value` is an `f64` modelled as an
exact rational, the name and unit are byte strings). -/

structure AcquisitionSample where
  /-- `timestamp.time_since_epoch().count()`: clock ticks, `int64`. -/
  timestamp : Int
  /-- `register_address`: `uint8_t`. -/
  register_address : Nat
  /-- `register_name` as its list of `char` values. -/
  register_name : List Nat
  /-- `raw_value`: signed 32-bit. -/
  raw_value : Int
  /-- `scaled_value`: `double`, modelled as an exact rational. -/
  scaled_value : Rat
  /-- `unit` as its list of `char` values. -/
  unit : List Nat
  deriving DecidableEq

instance : Inhabited AcquisitionSample :=
  ⟨{ timestamp := 0, register_address := 0, register_name := [],
     raw_value := 0, scaled_value := 0, unit := [] }⟩

/-! ## Machine-integer casts -/

/-- Reinterpret a `Nat` as a two's-complement `int64`
(`static_cast<int64_t>(uint64_t)`). -/
def toInt64 (n : Nat) : Int :=
  if n % 2 ^ 64 < 2 ^ 63 then (n % 2 ^ 64 : Nat) else (n % 2 ^ 64 : Nat) - 2 ^ 64

/-- Wrap an integer to the `int64` range (two's-complement overflow of
64-bit arithmetic). -/
def i64wrap (x : Int) : Int :=
  if x % (2 ^ 64) < 2 ^ 63 then x % (2 ^ 64) else x % (2 ^ 64) - 2 ^ 64

/-- Wrap an integer to the `int32` range (`static_cast<int32_t>` of a wider
value / 32-bit two's-complement overflow). -/
def i32wrap (x : Int) : Int :=
  if x % (2 ^ 32) < 2 ^ 31 then x % (2 ^ 32) else x % (2 ^ 32) - 2 ^ 32

/-- `static_cast<uint64_t>` of an `int64` value. -/
def toUInt64 (x : Int) : Nat := (x % (2 ^ 64)).toNat

/-- `static_cast<int64_t>(double)`: truncation toward zero of a real value
(the `double` is modelled as an exact rational). -/
def truncQ (q : Rat) : Int := if 0 ≤ q then ⌊q⌋ else ⌈q⌉

/-- The fixed-point image of a scaled value:
`static_cast<int64_t>(scaled_value * 1000000)`. -/
def scaledFixed (q : Rat) : Int := truncQ (q * 1000000)

/-! ## Varint (`DeltaCompression::encodeVarint` / `decodeVarint`)

The encoder emits base-128 groups, low group first, high bit of a byte set
on all but the final group.  The decoder accumulates groups into a
`uint64`; it stops at a byte with the high bit clear, **or silently when
the input is exhausted** (the C++ loop condition is `offset < data.size()`
and falling off the end just returns the partial result), and throws only
when the group shift would reach 64 bits. -/

/-- `DeltaCompression::encodeVarint`.  `v % 128 + 128` is
`(value & 0x7F) | 0x80`, and the final byte is `value & 0x7F = v`. -/
def encodeVarint (v : Nat) : List Nat :=
  if h : v < 128 then [v]
  else (v % 128 + 128) :: encodeVarint (v / 128)
termination_by v
decreasing_by exact Nat.div_lt_self (by omega) (by omega)

/-- Loop body of `DeltaCompression::decodeVarint`, with the remaining input
as an explicit list.  `acc + b % 128 * 2 ^ shift` reduced mod `2 ^ 64` is
`result |= (byte & 0x7F) << shift` on a `uint64` (the groups never overlap,
so the bitwise or is addition).  Stream bytes are `uint8_t`, hence the
`% 256`. -/
def decodeVarintAux : List Nat → Nat → Nat → Except String (Nat × List Nat)
  | [], _, acc => .ok (acc, [])
  | b :: rest, shift, acc =>
    if b % 256 < 128 then .ok ((acc + b % 256 % 128 * 2 ^ shift) % 2 ^ 64, rest)
    else if 64 ≤ shift + 7 then .error "Invalid varint encoding"
    else decodeVarintAux rest (shift + 7) ((acc + b % 256 % 128 * 2 ^ shift) % 2 ^ 64)

/-- `DeltaCompression::decodeVarint`, returning the decoded value and the
unconsumed tail of the input. -/
def decodeVarint (l : List Nat) : Except String (Nat × List Nat) :=
  decodeVarintAux l 0 0

/-! ## Zigzag (`DeltaCompression::zigzagEncode` / `zigzagDecode`)

`zigzagEncode` is `(delta << 1) ^ (delta >> 63)` on an `int64`: the left
shift doubles the value modulo `2^64` and the arithmetic right shift is
all-ones exactly when the two's-complement sign bit is set, in which case
the xor with all-ones is `2^64 - 1 - x`.  `zigzagDecode` is
`(u >> 1) ^ (-(int64)(u & 1))` followed by the cast back to `int64`. -/

/-- `DeltaCompression::zigzagEncode` on the two's-complement image of `d`. -/
def zigzagEncode (d : Int) : Nat :=
  if d % (2 ^ 64 : Int) < 2 ^ 63 then ((2 * d) % (2 ^ 64 : Int)).toNat
  else 2 ^ 64 - 1 - ((2 * d) % (2 ^ 64 : Int)).toNat

/-- `DeltaCompression::zigzagDecode`. -/
def zigzagDecode (u : Nat) : Int :=
  toInt64 (if u % 2 = 1 then 2 ^ 64 - 1 - u / 2 % 2 ^ 64 else u / 2 % 2 ^ 64)

theorem zigzagDecode_encode (d : Int) (h1 : -(2 ^ 63) ≤ d) (h2 : d < 2 ^ 63) :
    zigzagDecode (zigzagEncode d) = d := by
  unfold zigzagEncode zigzagDecode toInt64
  split_ifs <;> omega

theorem zigzagEncode_lt (d : Int) (h1 : -(2 ^ 62) ≤ d) (h2 : d < 2 ^ 62) :
    zigzagEncode d < 2 ^ 63 := by
  unfold zigzagEncode
  split_ifs <;> omega

theorem zigzagEncode_lt64 (d : Int) : zigzagEncode d < 2 ^ 64 := by
  unfold zigzagEncode
  split_ifs <;> omega

theorem encodeVarint_ne_nil (v : Nat) : encodeVarint v ≠ [] := by
  unfold encodeVarint
  split_ifs <;> simp

/-- Decoding an encoded group sequence: the accumulator invariant for the
`decodeVarint` loop.  The already-accumulated low bits `acc` sit below
`2 ^ shift` and the value still to come fits in the remaining bits. -/
theorem decodeVarintAux_encode (v : Nat) :
    ∀ (shift acc : Nat) (rest : List Nat), shift ≤ 63 → v < 2 ^ (64 - shift) →
      acc < 2 ^ shift →
      decodeVarintAux (encodeVarint v ++ rest) shift acc =
        .ok (acc + v * 2 ^ shift, rest) := by
  induction v using Nat.strong_induction_on with
  | _ v ih =>
    intro shift acc rest hs hv hacc
    have hp : 2 ^ (64 - shift) * 2 ^ shift = 2 ^ 64 := by
      rw [← pow_add]; congr 1; omega
    have hb1 : (v + 1) * 2 ^ shift ≤ 2 ^ (64 - shift) * 2 ^ shift :=
      Nat.mul_le_mul_right _ (by omega)
    rw [add_mul, one_mul] at hb1
    have hsum : acc + v * 2 ^ shift < 2 ^ 64 := by omega
    unfold encodeVarint
    split_ifs with h128
    · simp only [List.cons_append, List.nil_append, decodeVarintAux]
      have hb : v % 256 = v := Nat.mod_eq_of_lt (by omega)
      have hb7 : v % 256 % 128 = v := by omega
      rw [if_pos (by omega), hb7, Nat.mod_eq_of_lt hsum]
      rfl
    · have hge : 128 ≤ v := by omega
      simp only [List.cons_append, decodeVarintAux]
      have hb : (v % 128 + 128) % 256 = v % 128 + 128 := Nat.mod_eq_of_lt (by omega)
      have hshift : ¬ 64 ≤ shift + 7 := by
        -- a continuation byte with shift ≥ 57 would need v ≥ 128 > 2 ^ (64 - shift)
        intro hge64
        have h7 : (64 - shift) ≤ 7 := by omega
        have : 2 ^ (64 - shift) ≤ 2 ^ 7 := Nat.pow_le_pow_right (by omega) h7
        omega
      have hb8 : (v % 128 + 128) % 256 % 128 = v % 128 := by omega
      have hmle : v % 128 * 2 ^ shift ≤ v * 2 ^ shift :=
        Nat.mul_le_mul_right _ (Nat.mod_le _ _)
      have hmod : (acc + v % 128 * 2 ^ shift) % 2 ^ 64 =
          acc + v % 128 * 2 ^ shift := Nat.mod_eq_of_lt (by omega)
      rw [if_neg (by omega), if_neg hshift, hb8, hmod]
      have hps : (128 : Nat) * 2 ^ shift = 2 ^ (shift + 7) := by
        rw [pow_add]; ring
      have hm127 : v % 128 * 2 ^ shift ≤ 127 * 2 ^ shift :=
        Nat.mul_le_mul_right _ (by omega)
      have hrec := ih (v / 128) (Nat.div_lt_self (by omega) (by omega))
        (shift + 7) (acc + v % 128 * 2 ^ shift) rest (by omega)
        (by
          rw [Nat.div_lt_iff_lt_mul (by omega)]
          have : 2 ^ (64 - (shift + 7)) * 128 = 2 ^ (64 - shift) := by
            have h7 : (64 - (shift + 7)) + 7 = 64 - shift := by omega
            calc 2 ^ (64 - (shift + 7)) * 128 = 2 ^ ((64 - (shift + 7)) + 7) := by
                  rw [pow_add]; ring
              _ = 2 ^ (64 - shift) := by rw [h7]
          omega)
        (by omega)
      simp only [List.append_eq]
      rw [hrec]
      have hsplit : v % 128 * 2 ^ shift + v / 128 * 2 ^ (shift + 7) =
          v * 2 ^ shift := by
        have h2 : v / 128 * 2 ^ (shift + 7) = v / 128 * 128 * 2 ^ shift := by
          rw [pow_add]; ring
        rw [h2, ← add_mul, Nat.mod_add_div']
      rw [Except.ok.injEq, Prod.mk.injEq]
      exact ⟨by omega, rfl⟩


/-- Round trip of the varint layer: any `uint64` value is recovered, with
the trailing bytes untouched. -/
theorem decodeVarint_encode (v : Nat) (rest : List Nat) (hv : v < 2 ^ 64) :
    decodeVarint (encodeVarint v ++ rest) = .ok (v, rest) := by
  have := decodeVarintAux_encode v 0 0 rest (by omega) (by simpa using hv) (by omega)
  simpa [decodeVarint] using this

/-! ## Run-length encoding of delta arrays
(`DeltaCompression::encodeDeltaRLE` / `decodeDeltaRLE` /
`encodeRLEArray` / `decodeRLEArray`)

A run is the zigzag-encoded delta as a varint; a multi-element run sets
bit 63 of that varint (`| 0x8000000000000000`, i.e. `+ 2^63` when the bit
is clear) and appends the run length, while a single element clears bit 63
(`& 0x7FFFFFFFFFFFFFFF`, i.e. `% 2^63`). -/

/-- `DeltaCompression::encodeDeltaRLE`. -/
def encodeDeltaRLE (delta : Int) (count : Nat) : List Nat :=
  if 1 < count then
    encodeVarint (if zigzagEncode delta < 2 ^ 63 then zigzagEncode delta + 2 ^ 63
                  else zigzagEncode delta) ++ encodeVarint count
  else
    encodeVarint (zigzagEncode delta % 2 ^ 63)

/-- `DeltaCompression::decodeDeltaRLE`, returning the delta, the run length
and the unconsumed tail. -/
def decodeDeltaRLE (l : List Nat) : Except String (Int × Nat × List Nat) :=
  match decodeVarint l with
  | .error e => .error e
  | .ok (u, r) =>
    if 2 ^ 63 ≤ u then
      match decodeVarint r with
      | .error e => .error e
      | .ok (cnt, r2) => .ok (zigzagDecode (u % 2 ^ 63), cnt, r2)
    else
      .ok (zigzagDecode u, 1, r)

/-- The greedy run scan of `DeltaCompression::encodeRLEArray`: emit the
head's maximal run, continue after it. -/
def encodeRuns : List Int → List Nat
  | [] => []
  | d :: tl =>
    encodeDeltaRLE d (1 + (tl.takeWhile (· == d)).length) ++
      encodeRuns (tl.dropWhile (· == d))
termination_by l => l.length
decreasing_by
  simp only [List.length_cons]
  exact Nat.lt_succ_of_le (List.dropWhile_sublist _).length_le

/-- `DeltaCompression::encodeRLEArray`: the element count, then the runs. -/
def encodeRLEArray (ds : List Int) : List Nat :=
  if ds.isEmpty then encodeVarint 0
  else encodeVarint ds.length ++ encodeRuns ds

/-- The `while (deltas.size() < array_size)` loop of
`DeltaCompression::decodeRLEArray`.  Each iteration expands one run, never
beyond `array_size` elements.  A run of length zero makes the C++ loop
spin forever; that is modelled by the fuel running out (the fuel equals
the number of still-needed elements, which every productive iteration
decreases). -/
def decodeRLEloop : Nat → Nat → List Int → List Nat →
    Except String (List Int × List Nat)
  | _, 0, acc, l => .ok (acc, l)
  | 0, _ + 1, _, _ => .error "RLE run of length zero loops forever"
  | fuel + 1, need + 1, acc, l =>
    match decodeDeltaRLE l with
    | .error e => .error e
    | .ok (d, cnt, r) =>
      decodeRLEloop fuel (need + 1 - min cnt (need + 1))
        (acc ++ List.replicate (min cnt (need + 1)) d) r

/-- `DeltaCompression::decodeRLEArray`. -/
def decodeRLEArray (l : List Nat) : Except String (List Int × List Nat) :=
  match decodeVarint l with
  | .error e => .error e
  | .ok (n, r) =>
    if n = 0 then .ok ([], r) else decodeRLEloop n n [] r

theorem decodeDeltaRLE_encode (d : Int) (cnt : Nat) (rest : List Nat)
    (h1 : -(2 ^ 62) ≤ d) (h2 : d < 2 ^ 62) (hc1 : 1 ≤ cnt) (hc2 : cnt < 2 ^ 64) :
    decodeDeltaRLE (encodeDeltaRLE d cnt ++ rest) = .ok (d, cnt, rest) := by
  have he : zigzagEncode d < 2 ^ 63 := zigzagEncode_lt d h1 h2
  have hd : zigzagDecode (zigzagEncode d) = d :=
    zigzagDecode_encode d (by omega) (by omega)
  unfold encodeDeltaRLE decodeDeltaRLE
  split_ifs with hcnt
  · rw [List.append_assoc, decodeVarint_encode _ _ (by omega)]
    dsimp only
    rw [if_pos (by omega), decodeVarint_encode _ _ (by omega)]
    dsimp only
    have hm : (zigzagEncode d + 2 ^ 63) % 2 ^ 63 = zigzagEncode d := by omega
    rw [hm, hd]
  · rw [Nat.mod_eq_of_lt he, decodeVarint_encode _ _ (by omega)]
    dsimp only
    rw [if_neg (by omega), hd]
    have hc : cnt = 1 := by omega
    rw [hc]

/-- Invariant of the RLE expansion loop against the greedy run encoder:
with fuel at least the number of still-needed elements, the runs of `ds`
expand to exactly `ds` appended to the accumulator. -/
theorem decodeRLEloop_encodeRuns (ds : List Int) :
    ∀ (acc : List Int) (rest : List Nat) (fuel : Nat),
      (∀ d ∈ ds, -(2 ^ 62) ≤ d ∧ d < 2 ^ 62) → ds.length ≤ fuel →
      ds.length < 2 ^ 64 →
      decodeRLEloop fuel ds.length acc (encodeRuns ds ++ rest) =
        .ok (acc ++ ds, rest) := by
  induction ds using encodeRuns.induct with
  | case1 =>
    intro acc rest fuel _ _ _
    cases fuel <;> simp [decodeRLEloop, encodeRuns]
  | case2 d tl ih =>
    intro acc rest fuel hr hfuel hlen
    have htk : ∀ x ∈ tl.takeWhile (· == d), x = d := by
      intro x hx
      have := List.mem_takeWhile_imp hx
      simpa using this
    have hrepl : tl.takeWhile (· == d) =
        List.replicate (tl.takeWhile (· == d)).length d :=
      List.eq_replicate_of_mem htk
    have hsplit : tl.takeWhile (· == d) ++ tl.dropWhile (· == d) = tl :=
      List.takeWhile_append_dropWhile (fun x => x == d) tl
    have hlentl := congrArg List.length hsplit
    rw [List.length_append] at hlentl
    set k := 1 + (tl.takeWhile (· == d)).length with hk
    have hkle : k ≤ (d :: tl).length := by
      simp only [List.length_cons, hk]
      have := (List.takeWhile_sublist (l := tl) (fun x => x == d)).length_le
      omega
    obtain ⟨f, rfl⟩ : ∃ f, fuel = f + 1 := by
      cases fuel
      · simp at hfuel
      · exact ⟨_, rfl⟩
    simp only [List.length_cons] at hkle hfuel hlen ⊢
    simp only [encodeRuns, List.append_assoc, decodeRLEloop]
    rw [decodeDeltaRLE_encode d k _ (hr d (by simp)).1 (hr d (by simp)).2
      (by omega) (by omega)]
    dsimp only
    have hmin : min k (tl.length + 1) = k := by omega
    rw [hmin]
    have hneed : tl.length + 1 - k = (tl.dropWhile (· == d)).length := by omega
    have hacc : List.replicate k d = d :: tl.takeWhile (· == d) := by
      rw [hk, Nat.one_add, List.replicate_succ, ← hrepl]
    rw [hneed, hacc]
    rw [ih (acc ++ d :: tl.takeWhile (· == d)) rest f
      (fun x hx => hr x
        (List.mem_cons_of_mem d ((List.dropWhile_sublist _).mem hx)))
      (by omega) (by omega)]
    have hfin : (acc ++ d :: tl.takeWhile (· == d)) ++ tl.dropWhile (· == d) =
        acc ++ d :: tl := by
      rw [List.append_assoc, List.cons_append, hsplit]
    rw [hfin]

/-- Round trip of one RLE-compressed delta array, with the trailing bytes
untouched. -/
theorem decodeRLEArray_encode (ds : List Int) (rest : List Nat)
    (hr : ∀ d ∈ ds, -(2 ^ 62) ≤ d ∧ d < 2 ^ 62) (hlen : ds.length < 2 ^ 64) :
    decodeRLEArray (encodeRLEArray ds ++ rest) = .ok (ds, rest) := by
  unfold decodeRLEArray
  rcases ds with - | ⟨d, tl⟩
  · have h0 : encodeRLEArray [] = encodeVarint 0 := by simp [encodeRLEArray]
    rw [h0, decodeVarint_encode 0 _ (by omega)]
    dsimp only
    rw [if_pos rfl]
  · have h1 : encodeRLEArray (d :: tl) =
        encodeVarint (d :: tl).length ++ encodeRuns (d :: tl) := by
      simp [encodeRLEArray]
    rw [h1, List.append_assoc, decodeVarint_encode _ _ hlen]
    dsimp only
    rw [if_neg (by simp)]
    have := decodeRLEloop_encodeRuns (d :: tl) [] rest (d :: tl).length hr
      (le_refl _) hlen
    simpa using this

/-! ## Byte strings and samples (`DeltaCompression::compress` / `decompress`)

The compressor stores a string as its length varint followed by its bytes
(`static_cast<uint8_t>(c)`, hence the `% 256`).  The decompressor reads
`data[offset++]` without a bounds check — `std::vector::operator[]` out of
range is undefined behaviour, modelled here as a parse error. -/

/-- Emit a string: length varint, then the `uint8_t` casts of its chars. -/
def encodeBytes (s : List Nat) : List Nat :=
  encodeVarint s.length ++ s.map (· % 256)

/-- Read `n` raw bytes.  Running off the end of `data` is an out-of-range
`std::vector` access in the C++ (undefined behaviour), modelled as an
error. -/
def readBytes (n : Nat) (l : List Nat) : Except String (List Nat × List Nat) :=
  if n ≤ l.length then .ok (l.take n, l.drop n)
  else .error "read past end of input"

/-- Read a length varint followed by that many bytes (the string-reading
loops of `DeltaCompression::decompress`). -/
def readLenBytes (l : List Nat) : Except String (List Nat × List Nat) :=
  match decodeVarint l with
  | .error e => .error e
  | .ok (n, r) => readBytes n r

/-- Read one byte (`data[offset++]`); the element of a
`std::vector<uint8_t>` is below 256. -/
def readByte : List Nat → Except String (Nat × List Nat)
  | [] => .error "read past end of input"
  | b :: r => .ok (b % 256, r)

theorem readLenBytes_encode (s : List Nat) (rest : List Nat)
    (hlen : s.length < 2 ^ 64) :
    readLenBytes (encodeBytes s ++ rest) = .ok (s.map (· % 256), rest) := by
  unfold encodeBytes readLenBytes
  rw [List.append_assoc, decodeVarint_encode _ _ hlen]
  dsimp only
  unfold readBytes
  rw [if_pos (by simp)]
  have hl : (s.map (· % 256)).length = s.length := List.length_map _ _
  rw [← hl, List.take_left, List.drop_left]

/-! ### Per-sample fields of the compressed stream -/

/-- The scaled-value image under one `compress`/`decompress` round trip:
`scaled_value` is replaced by its truncated fixed-point value divided back
out, every other field is recovered exactly.  (This is a description of
the result, not part of the codec.) -/
def recOf (s : AcquisitionSample) : AcquisitionSample :=
  { s with scaled_value := ((scaledFixed s.scaled_value : Int) : Rat) / 1000000 }

/-- The first-sample header written by `DeltaCompression::compress`:
timestamp ticks as `uint64`, address, zigzag raw value, zigzag fixed-point
scaled value, name, unit. -/
def compressFirst (s : AcquisitionSample) : List Nat :=
  encodeVarint (toUInt64 s.timestamp)
  ++ encodeVarint s.register_address
  ++ encodeVarint (zigzagEncode s.raw_value)
  ++ encodeVarint (zigzagEncode (scaledFixed s.scaled_value))
  ++ encodeBytes s.register_name
  ++ encodeBytes s.unit

/-- Consecutive-sample deltas (`current − previous`), oldest pair first. -/
def deltasBy (g : AcquisitionSample → AcquisitionSample → Int)
    (xs : List AcquisitionSample) : List Int :=
  List.zipWith g xs.tail xs

/-- `time_deltas`: `int64` differences of clock ticks. -/
def timeDeltas (xs : List AcquisitionSample) : List Int :=
  deltasBy (fun c p => i64wrap (c.timestamp - p.timestamp)) xs

/-- `addr_deltas`: differences after widening both `uint8_t` addresses to
`int64` (never wraps). -/
def addrDeltas (xs : List AcquisitionSample) : List Int :=
  deltasBy (fun c p => (c.register_address : Int) - (p.register_address : Int)) xs

/-- `raw_deltas`: differences of the 32-bit raw values (computed at `int`
width in the C++, hence the 32-bit wrap). -/
def rawDeltas (xs : List AcquisitionSample) : List Int :=
  deltasBy (fun c p => i32wrap (c.raw_value - p.raw_value)) xs

/-- `scaled_deltas`: `int64` differences of the truncated fixed-point
scaled values. -/
def scaledDeltas (xs : List AcquisitionSample) : List Int :=
  deltasBy (fun c p =>
    i64wrap (scaledFixed c.scaled_value - scaledFixed p.scaled_value)) xs

/-- The trailing change-flag section of the stream: per later sample, a
name flag byte (`1` followed by the new name when it differs from the
previous sample's, else `0`), then the same for the unit. -/
def encodeFlags : AcquisitionSample → List AcquisitionSample → List Nat
  | _, [] => []
  | prev, c :: tl =>
    (if c.register_name ≠ prev.register_name then 1 :: encodeBytes c.register_name
     else [0])
    ++ (if c.unit ≠ prev.unit then 1 :: encodeBytes c.unit else [0])
    ++ encodeFlags c tl

/-- `DeltaCompression::compress`. -/
def compress (xs : List AcquisitionSample) : List Nat :=
  match xs with
  | [] => []
  | first :: rest =>
    encodeVarint (rest.length + 1)
    ++ compressFirst first
    ++ encodeRLEArray (timeDeltas (first :: rest))
    ++ encodeRLEArray (addrDeltas (first :: rest))
    ++ encodeRLEArray (rawDeltas (first :: rest))
    ++ encodeRLEArray (scaledDeltas (first :: rest))
    ++ encodeFlags first rest

/-- The conditional string read after a change-flag byte: on flag `1` read
a fresh string, otherwise inherit the previous sample's. -/
def readOptBytes (flagByte : Nat) (inherited : List Nat) (l : List Nat) :
    Except String (List Nat × List Nat) :=
  if flagByte = 1 then readLenBytes l else .ok (inherited, l)

/-- The sample-reconstruction loop of `DeltaCompression::decompress`
(`for i in 1..count`): apply the `i−1`-st delta of each array to the
previous sample, with the casts the C++ performs
(`int64` wrap for the timestamp, `uint8_t` cast for the address,
`int32` cast for the raw value, re-truncation of the previous `double`
for the fixed-point base), then read the name/unit change flags.
Indexing a delta array out of range is `std::vector` UB, modelled as an
error. -/
def reconstructLoop : Nat → AcquisitionSample → List Int → List Int →
    List Int → List Int → List Nat → Except String (List AcquisitionSample)
  | 0, _, _, _, _, _, _ => .ok []
  | n + 1, prev, tds0, ads0, rds0, sds0, l0 =>
    match tds0, ads0, rds0, sds0 with
    | td :: tds, ad :: ads, rd :: rds, sd :: sds =>
      match readByte l0 with
      | .error e => .error e
      | .ok (fn, l1) =>
        match readOptBytes fn prev.register_name l1 with
        | .error e => .error e
        | .ok (name, l2) =>
          match readByte l2 with
          | .error e => .error e
          | .ok (fu, l3) =>
            match readOptBytes fu prev.unit l3 with
            | .error e => .error e
            | .ok (unit, l4) =>
              let cur : AcquisitionSample :=
                { timestamp := i64wrap (prev.timestamp + td)
                  register_address :=
                    (((prev.register_address : Int) + ad) % 256).toNat
                  register_name := name
                  raw_value := i32wrap (prev.raw_value + rd)
                  scaled_value :=
                    ((i64wrap (truncQ (prev.scaled_value * 1000000) + sd) : Int) :
                      Rat) / 1000000
                  unit := unit }
              match reconstructLoop n cur tds ads rds sds l4 with
              | .error e => .error e
              | .ok rest => .ok (cur :: rest)
    | _, _, _, _ => .error "delta array index out of range"

/-- `DeltaCompression::decompress`. -/
def decompress (data : List Nat) : Except String (List AcquisitionSample) :=
  if data = [] then .ok []
  else
    match decodeVarint data with
    | .error e => .error e
    | .ok (count, l1) =>
      if count = 0 then .ok []
      else
        match decodeVarint l1 with
        | .error e => .error e
        | .ok (ts_u, l2) =>
          match decodeVarint l2 with
          | .error e => .error e
          | .ok (addr_u, l3) =>
            match decodeVarint l3 with
            | .error e => .error e
            | .ok (raw_u, l4) =>
              match decodeVarint l4 with
              | .error e => .error e
              | .ok (sf_u, l5) =>
                match readLenBytes l5 with
                | .error e => .error e
                | .ok (name, l6) =>
                  match readLenBytes l6 with
                  | .error e => .error e
                  | .ok (unit, l7) =>
                    let first : AcquisitionSample :=
                      { timestamp := toInt64 ts_u
                        register_address := addr_u % 256
                        register_name := name
                        raw_value := i32wrap (zigzagDecode raw_u)
                        scaled_value := ((zigzagDecode sf_u : Int) : Rat) / 1000000
                        unit := unit }
                    match decodeRLEArray l7 with
                    | .error e => .error e
                    | .ok (tds, l8) =>
                      match decodeRLEArray l8 with
                      | .error e => .error e
                      | .ok (ads, l9) =>
                        match decodeRLEArray l9 with
                        | .error e => .error e
                        | .ok (rds, l10) =>
                          match decodeRLEArray l10 with
                          | .error e => .error e
                          | .ok (sds, l11) =>
                            match reconstructLoop (count - 1) first
                                tds ads rds sds l11 with
                            | .error e => .error e
                            | .ok rest => .ok (first :: rest)

/-! ## Cast and truncation lemmas -/

theorem i64wrap_eq_self (x : Int) (h1 : -(2 ^ 63) ≤ x) (h2 : x < 2 ^ 63) :
    i64wrap x = x := by
  unfold i64wrap
  split_ifs <;> omega

theorem i32wrap_bounds (x : Int) : -(2 ^ 31) ≤ i32wrap x ∧ i32wrap x < 2 ^ 31 := by
  unfold i32wrap
  split_ifs <;> omega

theorem i32wrap_eq_self (x : Int) (h1 : -(2 ^ 31) ≤ x) (h2 : x < 2 ^ 31) :
    i32wrap x = x := by
  unfold i32wrap
  split_ifs <;> omega

theorem i32wrap_add_sub (p c : Int) (h1 : -(2 ^ 31) ≤ c) (h2 : c < 2 ^ 31) :
    i32wrap (p + i32wrap (c - p)) = c := by
  unfold i32wrap
  split_ifs <;> omega

theorem i64wrap_add_sub (p c : Int) (h1 : -(2 ^ 63) ≤ c) (h2 : c < 2 ^ 63) :
    i64wrap (p + i64wrap (c - p)) = c := by
  unfold i64wrap
  split_ifs <;> omega

theorem toInt64_toUInt64 (x : Int) (h1 : -(2 ^ 63) ≤ x) (h2 : x < 2 ^ 63) :
    toInt64 (toUInt64 x) = x := by
  unfold toInt64 toUInt64
  split_ifs <;> omega

theorem toUInt64_lt (x : Int) : toUInt64 x < 2 ^ 64 := by
  unfold toUInt64
  omega

theorem truncQ_intCast (n : Int) : truncQ (n : Rat) = n := by
  unfold truncQ
  split_ifs
  · exact Int.floor_intCast n
  · exact Int.ceil_intCast n

theorem truncQ_fixed (F : Int) : truncQ ((F : Rat) / 1000000 * 1000000) = F := by
  have h : ((F : Rat)) / 1000000 * 1000000 = (F : Rat) :=
    div_mul_cancel₀ _ (by norm_num)
  rw [h, truncQ_intCast]

theorem abs_sub_truncQ_lt (q : Rat) : |q - (truncQ q : Rat)| < 1 := by
  unfold truncQ
  split_ifs with h
  · rw [abs_lt]
    constructor <;> linarith [Int.floor_le q, Int.lt_floor_add_one q]
  · rw [abs_lt]
    constructor <;> linarith [Int.le_ceil q, Int.ceil_lt_add_one q]

theorem scaled_value_close (q : Rat) :
    |q - ((scaledFixed q : Int) : Rat) / 1000000| ≤ 1 / 1000000 := by
  have h := abs_sub_truncQ_lt (q * 1000000)
  have he : q - ((scaledFixed q : Int) : Rat) / 1000000 =
      (q * 1000000 - (truncQ (q * 1000000) : Rat)) / 1000000 := by
    unfold scaledFixed
    field_simp
  rw [he, abs_div]
  rw [abs_of_pos (show (0 : Rat) < 1000000 by norm_num)]
  rw [div_le_div_iff₀ (by norm_num) (by norm_num)]
  calc |q * 1000000 - (truncQ (q * 1000000) : Rat)| * 1000000
      ≤ 1 * 1000000 := by
        apply mul_le_mul_of_nonneg_right (le_of_lt h) (by norm_num)
    _ = 1 * 1000000 := rfl

theorem addr_recover (p c : Nat) (hc : c < 256) :
    ((((p : Nat) : Int) + ((c : Int) - (p : Int))) % 256).toNat = c := by
  omega

theorem map_mod256_eq_self (s : List Nat) (h : ∀ b ∈ s, b < 256) :
    s.map (· % 256) = s := by
  have := List.map_congr_left (l := s) (f := (· % 256)) (g := id)
    (fun b hb => Nat.mod_eq_of_lt (h b hb))
  rw [this, List.map_id]

/-! ## Field-range side conditions for the round trip

These express the machine-integer ranges the C++ types enforce (the Lean
model uses unbounded integers) together with the delta ranges under which
the RLE bit-63 run marker cannot collide with a zigzag-encoded delta. -/

/-- The sample's fields fit the C++ field types (`u8` address, `i32` raw
value, `int64` clock ticks, `int64` fixed-point scaled value, `char`
bytes, `size_t` lengths). -/
def SampleInRange (s : AcquisitionSample) : Prop :=
  s.register_address < 256 ∧
  -(2 ^ 31) ≤ s.raw_value ∧ s.raw_value < 2 ^ 31 ∧
  -(2 ^ 63) ≤ s.timestamp ∧ s.timestamp < 2 ^ 63 ∧
  -(2 ^ 63) ≤ scaledFixed s.scaled_value ∧ scaledFixed s.scaled_value < 2 ^ 63 ∧
  (∀ b ∈ s.register_name, b < 256) ∧ s.register_name.length < 2 ^ 64 ∧
  (∀ b ∈ s.unit, b < 256) ∧ s.unit.length < 2 ^ 64

/-- Consecutive samples whose timestamp and fixed-point scaled-value
deltas avoid the RLE run-marker bit (bit 63 of the zigzag encoding). -/
def DeltasInRange (p c : AcquisitionSample) : Prop :=
  -(2 ^ 62) ≤ c.timestamp - p.timestamp ∧
  c.timestamp - p.timestamp < 2 ^ 62 ∧
  -(2 ^ 62) ≤ scaledFixed c.scaled_value - scaledFixed p.scaled_value ∧
  scaledFixed c.scaled_value - scaledFixed p.scaled_value < 2 ^ 62

theorem deltasBy_nil (g : AcquisitionSample → AcquisitionSample → Int) :
    deltasBy g [] = [] := rfl

theorem deltasBy_single (g : AcquisitionSample → AcquisitionSample → Int)
    (a : AcquisitionSample) : deltasBy g [a] = [] := rfl

theorem deltasBy_cons₂ (g : AcquisitionSample → AcquisitionSample → Int)
    (a b : AcquisitionSample) (tl : List AcquisitionSample) :
    deltasBy g (a :: b :: tl) = g b a :: deltasBy g (b :: tl) := rfl

/-- Elements of a delta list are produced from adjacent pairs that satisfy
the chain relation. -/
theorem forall_mem_deltasBy_of_chain
    {g : AcquisitionSample → AcquisitionSample → Int}
    {R : AcquisitionSample → AcquisitionSample → Prop} {Q : Int → Prop} :
    ∀ (xs : List AcquisitionSample), List.Chain' R xs →
      (∀ c p, R p c → Q (g c p)) → ∀ d ∈ deltasBy g xs, Q d
  | [], _, _ => by simp [deltasBy_nil]
  | [a], _, _ => by simp [deltasBy_single]
  | a :: b :: tl, hchain, hg => by
    rw [List.chain'_cons] at hchain
    rw [deltasBy_cons₂]
    intro d hd
    rcases List.mem_cons.mp hd with h | h
    · exact h ▸ hg b a hchain.1
    · exact forall_mem_deltasBy_of_chain (b :: tl) hchain.2 hg d h

/-- Elements of a delta list are produced from two member samples. -/
theorem forall_mem_deltasBy_of_mem
    {g : AcquisitionSample → AcquisitionSample → Int} {Q : Int → Prop} :
    ∀ (xs : List AcquisitionSample), (∀ s ∈ xs, SampleInRange s) →
      (∀ c p, SampleInRange c → SampleInRange p → Q (g c p)) →
      ∀ d ∈ deltasBy g xs, Q d
  | [], _, _ => by simp [deltasBy_nil]
  | [a], _, _ => by simp [deltasBy_single]
  | a :: b :: tl, hall, hg => by
    rw [deltasBy_cons₂]
    intro d hd
    rcases List.mem_cons.mp hd with h | h
    · exact h ▸ hg b a (hall b (by simp)) (hall a (by simp))
    · exact forall_mem_deltasBy_of_mem (b :: tl)
        (fun s hs => hall s (List.mem_cons_of_mem a hs)) hg d h

theorem deltasBy_length (g : AcquisitionSample → AcquisitionSample → Int)
    (xs : List AcquisitionSample) :
    (deltasBy g xs).length = xs.length - 1 := by
  unfold deltasBy
  rw [List.length_zipWith, List.length_tail]
  omega

/-! ## The sample-reconstruction round trip -/

theorem recOf_timestamp (s : AcquisitionSample) :
    (recOf s).timestamp = s.timestamp := rfl

theorem recOf_address (s : AcquisitionSample) :
    (recOf s).register_address = s.register_address := rfl

theorem recOf_name (s : AcquisitionSample) :
    (recOf s).register_name = s.register_name := rfl

theorem recOf_raw (s : AcquisitionSample) :
    (recOf s).raw_value = s.raw_value := rfl

theorem recOf_unit (s : AcquisitionSample) : (recOf s).unit = s.unit := rfl

theorem recOf_scaled (s : AcquisitionSample) :
    (recOf s).scaled_value = ((scaledFixed s.scaled_value : Int) : Rat) / 1000000 :=
  rfl

/-- Reading one change-flag segment (the flag byte, then either a fresh
string or the inherited one) recovers the current sample's string. -/
theorem flagSegment_read (cur prevName : List Nat) (X : List Nat)
    (hbytes : ∀ b ∈ cur, b < 256) (hlen : cur.length < 2 ^ 64) :
    ∃ f l1,
      readByte ((if cur ≠ prevName then 1 :: encodeBytes cur else [0]) ++ X) =
        .ok (f, l1) ∧
      readOptBytes f prevName l1 = .ok (cur, X) := by
  by_cases h : cur = prevName
  · refine ⟨0, X, ?_, ?_⟩
    · rw [if_neg (by simpa using h)]
      rfl
    · rw [readOptBytes, if_neg (by omega), h]
  · refine ⟨1, encodeBytes cur ++ X, ?_, ?_⟩
    · rw [if_pos h]
      rfl
    · rw [readOptBytes, if_pos rfl, readLenBytes_encode cur X hlen,
        map_mod256_eq_self cur hbytes]

/-- The reconstruction loop of `decompress`, fed the deltas and change
flags that `compress` produced from the original chain, recovers each
later sample up to `recOf`. -/
theorem reconstructLoop_encodeFlags :
    ∀ (tl : List AcquisitionSample) (p : AcquisitionSample) (rest : List Nat),
      SampleInRange p → (∀ s ∈ tl, SampleInRange s) →
      List.Chain' DeltasInRange (p :: tl) →
      reconstructLoop tl.length (recOf p)
        (timeDeltas (p :: tl)) (addrDeltas (p :: tl)) (rawDeltas (p :: tl))
        (scaledDeltas (p :: tl)) (encodeFlags p tl ++ rest) =
      .ok (tl.map recOf)
  | [], p, rest, _, _, _ => by
    simp [timeDeltas, addrDeltas, rawDeltas, scaledDeltas, deltasBy_single,
      reconstructLoop]
  | c :: tl2, p, rest, hp, hall, hchain => by
    rw [List.chain'_cons] at hchain
    obtain ⟨⟨hd1, hd2, hd3, hd4⟩, hchain2⟩ := hchain
    obtain ⟨hca, hcr1, hcr2, hct1, hct2, hcf1, hcf2, hcn, hcnl, hcu, hcul⟩ :=
      hall c (by simp)
    simp only [timeDeltas, addrDeltas, rawDeltas, scaledDeltas, deltasBy_cons₂,
      List.length_cons]
    simp only [reconstructLoop, encodeFlags, List.append_assoc]
    obtain ⟨fn, ln, hn1, hn2⟩ := flagSegment_read c.register_name p.register_name
      ((if c.unit ≠ p.unit then 1 :: encodeBytes c.unit else [0]) ++
        (encodeFlags c tl2 ++ rest)) hcn hcnl
    rw [show (recOf p).register_name = p.register_name from rfl] at *
    rw [hn1]
    dsimp only
    rw [hn2]
    dsimp only
    obtain ⟨fu, lu, hu1, hu2⟩ := flagSegment_read c.unit p.unit
      (encodeFlags c tl2 ++ rest) hcu hcul
    rw [show (recOf p).unit = p.unit from rfl]
    rw [hu1]
    dsimp only
    rw [hu2]
    dsimp only
    have hts : i64wrap ((recOf p).timestamp +
        i64wrap (c.timestamp - p.timestamp)) = c.timestamp := by
      rw [recOf_timestamp]
      exact i64wrap_add_sub _ _ hct1 hct2
    have haddr : ((((recOf p).register_address : Int) +
        ((c.register_address : Int) - (p.register_address : Int))) % 256).toNat =
        c.register_address := by
      rw [recOf_address]
      exact addr_recover _ _ hca
    have hraw : i32wrap ((recOf p).raw_value +
        i32wrap (c.raw_value - p.raw_value)) = c.raw_value := by
      rw [recOf_raw]
      exact i32wrap_add_sub _ _ hcr1 hcr2
    have hsf : i64wrap (truncQ ((recOf p).scaled_value * 1000000) +
        i64wrap (scaledFixed c.scaled_value - scaledFixed p.scaled_value)) =
        scaledFixed c.scaled_value := by
      rw [recOf_scaled, truncQ_fixed]
      exact i64wrap_add_sub _ _ hcf1 hcf2
    rw [hts, haddr, hraw, hsf]
    have hrec := reconstructLoop_encodeFlags tl2 c rest
      ⟨hca, hcr1, hcr2, hct1, hct2, hcf1, hcf2, hcn, hcnl, hcu, hcul⟩
      (fun s hs => hall s (List.mem_cons_of_mem c hs)) hchain2
    simp only [timeDeltas, addrDeltas, rawDeltas, scaledDeltas] at hrec
    rw [show AcquisitionSample.mk c.timestamp c.register_address c.register_name
          c.raw_value (((scaledFixed c.scaled_value : Int) : Rat) / 1000000)
          c.unit = recOf c from rfl, hrec]
    rw [List.map_cons]

/-- The full codec round trip as an equality: under the machine-range side
conditions, `decompress (compress xs)` succeeds and returns each sample
with `scaled_value` replaced by its quantized image and every other field
exact. -/
theorem decompress_compress (xs : List AcquisitionSample)
    (hlen : xs.length < 2 ^ 64)
    (hall : ∀ s ∈ xs, SampleInRange s)
    (hchain : List.Chain' DeltasInRange xs) :
    decompress (compress xs) = .ok (xs.map recOf) := by
  rcases xs with - | ⟨first, rest⟩
  · rfl
  · obtain ⟨hfa, hfr1, hfr2, hft1, hft2, hff1, hff2, hfn, hfnl, hfu, hful⟩ :=
      hall first (by simp)
    have hne : compress (first :: rest) ≠ [] := by
      simp only [compress, List.append_assoc]
      exact List.append_ne_nil_of_left_ne_nil (encodeVarint_ne_nil _) _
    unfold decompress
    rw [if_neg hne]
    simp only [compress, compressFirst]
    simp only [List.append_assoc, List.length_cons] at hlen ⊢
    rw [decodeVarint_encode _ _ hlen]
    dsimp only
    rw [if_neg (by omega)]
    rw [decodeVarint_encode _ _ (toUInt64_lt _)]
    dsimp only
    rw [decodeVarint_encode _ _ (by omega)]
    dsimp only
    rw [decodeVarint_encode _ _ (zigzagEncode_lt64 _)]
    dsimp only
    rw [decodeVarint_encode _ _ (zigzagEncode_lt64 _)]
    dsimp only
    rw [readLenBytes_encode _ _ hfnl]
    dsimp only
    rw [readLenBytes_encode _ _ hful]
    dsimp only
    -- the four RLE delta arrays
    have hdlen : ∀ g, (deltasBy g (first :: rest)).length < 2 ^ 64 := by
      intro g
      rw [deltasBy_length]
      simp only [List.length_cons]
      omega
    have htrange : ∀ d ∈ timeDeltas (first :: rest),
        -(2 ^ 62) ≤ d ∧ d < 2 ^ 62 := by
      unfold timeDeltas
      refine forall_mem_deltasBy_of_chain (first :: rest) hchain ?_
      intro c p hR
      obtain ⟨hR1, hR2, hR3, hR4⟩ := hR
      rw [i64wrap_eq_self _ (by omega) (by omega)]
      exact ⟨hR1, hR2⟩
    have harange : ∀ d ∈ addrDeltas (first :: rest),
        -(2 ^ 62) ≤ d ∧ d < 2 ^ 62 := by
      unfold addrDeltas
      refine forall_mem_deltasBy_of_mem (first :: rest) hall ?_
      intro c p hc hp
      have h1 := hc.1
      have h2 := hp.1
      omega
    have hrrange : ∀ d ∈ rawDeltas (first :: rest),
        -(2 ^ 62) ≤ d ∧ d < 2 ^ 62 := by
      unfold rawDeltas
      refine forall_mem_deltasBy_of_mem (first :: rest) hall ?_
      intro c p _ _
      have := i32wrap_bounds (c.raw_value - p.raw_value)
      omega
    have hsrange : ∀ d ∈ scaledDeltas (first :: rest),
        -(2 ^ 62) ≤ d ∧ d < 2 ^ 62 := by
      unfold scaledDeltas
      refine forall_mem_deltasBy_of_chain (first :: rest) hchain ?_
      intro c p hR
      obtain ⟨hR1, hR2, hR3, hR4⟩ := hR
      rw [i64wrap_eq_self _ (by omega) (by omega)]
      exact ⟨hR3, hR4⟩
    rw [decodeRLEArray_encode _ _ htrange (hdlen _)]
    dsimp only
    rw [decodeRLEArray_encode _ _ harange (hdlen _)]
    dsimp only
    rw [decodeRLEArray_encode _ _ hrrange (hdlen _)]
    dsimp only
    rw [decodeRLEArray_encode _ _ hsrange (hdlen _)]
    dsimp only
    -- the decoded first sample is `recOf first`
    rw [toInt64_toUInt64 _ hft1 hft2, Nat.mod_eq_of_lt hfa,
      map_mod256_eq_self _ hfn, map_mod256_eq_self _ hfu,
      zigzagDecode_encode _ (by omega) (by omega),
      zigzagDecode_encode _ hff1 hff2, i32wrap_eq_self _ hfr1 hfr2]
    rw [show AcquisitionSample.mk first.timestamp first.register_address
          first.register_name first.raw_value
          (((scaledFixed first.scaled_value : Int) : Rat) / 1000000)
          first.unit = recOf first from rfl]
    -- the reconstruction loop
    have hrec := reconstructLoop_encodeFlags rest first []
      ⟨hfa, hfr1, hfr2, hft1, hft2, hff1, hff2, hfn, hfnl, hfu, hful⟩
      (fun s hs => hall s (List.mem_cons_of_mem first hs)) hchain
    rw [List.append_nil] at hrec
    rw [show rest.length + 1 - 1 = rest.length from rfl, hrec]
    rw [List.map_cons]

/-! ## Evaluation helpers for concrete streams -/

theorem encodeVarint_lt128 (v : Nat) (h : v < 128) : encodeVarint v = [v] := by
  unfold encodeVarint
  rw [dif_pos h]

/-! ## Claim C1: the codec round trip

`spec.md` §4.B / §8: "for every finite sample vector `xs`,
`decompress(compress(xs))` is elementwise equal to `xs` under:
`register_address`, `raw_value`, `name`, `unit` exactly; `scaled_value`
within 10⁻⁶; `timestamp` within 10⁻⁶ s." -/

/-- 10⁻⁶ s expressed in clock ticks at the spec's nominal 100 ns native
duration (§4.B). -/
def tsToleranceTicks : Nat := 10

/-- Elementwise recovery as the spec states it: four fields exact,
`scaled_value` within 10⁻⁶, timestamp within 10⁻⁶ s. -/
def sampleMatches (orig rec : AcquisitionSample) : Prop :=
  rec.register_address = orig.register_address ∧
  rec.raw_value = orig.raw_value ∧
  rec.register_name = orig.register_name ∧
  rec.unit = orig.unit ∧
  |rec.scaled_value - orig.scaled_value| ≤ 1 / 1000000 ∧
  (rec.timestamp - orig.timestamp).natAbs ≤ tsToleranceTicks

/-- The round-trip result matches the input elementwise, under the spec's
tolerances. -/
def RoundTripMatches (xs ys : List AcquisitionSample) : Prop :=
  ys.length = xs.length ∧
  ∀ (i : Nat) (h1 : i < xs.length) (h2 : i < ys.length),
    sampleMatches xs[i] ys[i]

/-- C1 (amended): the codec round trip holds for every sample vector whose
fields fit their C++ machine types and whose consecutive-sample timestamp
and fixed-point scaled-value deltas lie in `[-2^62, 2^62)` (so that the
RLE run marker in bit 63 cannot collide with a zigzag-encoded delta):
`decompress (compress xs)` succeeds, has the length of `xs`, and recovers
`register_address`, `raw_value`, `register_name` and `unit` exactly, the
timestamp exactly (hence within 10⁻⁶ s), and `scaled_value` within
10⁻⁶. -/
theorem c1_codec_roundtrip (xs : List AcquisitionSample)
    (hlen : xs.length < 2 ^ 64) (hall : ∀ s ∈ xs, SampleInRange s)
    (hchain : List.Chain' DeltasInRange xs) :
    ∃ ys, decompress (compress xs) = .ok ys ∧ RoundTripMatches xs ys := by
  refine ⟨xs.map recOf, decompress_compress xs hlen hall hchain,
    List.length_map _ _, ?_⟩
  intro i h1 h2
  have hm : (xs.map recOf)[i] = recOf xs[i] := List.getElem_map _
  rw [hm]
  refine ⟨rfl, rfl, rfl, rfl, ?_, ?_⟩
  · rw [recOf_scaled, abs_sub_comm]
    exact scaled_value_close _
  · rw [recOf_timestamp, sub_self]
    simp [tsToleranceTicks]

/-- The all-zero sample, and its variant with timestamp tick `2 ^ 62`:
their timestamp delta has bit 62 set, so its zigzag encoding has bit 63
set — the RLE run-marker bit. -/
def cexA : AcquisitionSample :=
  { timestamp := 0, register_address := 0, register_name := [], raw_value := 0,
    scaled_value := 0, unit := [] }

/-- See `cexA`. -/
def cexB : AcquisitionSample := { cexA with timestamp := 2 ^ 62 }

theorem compress_cex : compress [cexA, cexB] =
    [2, 0, 0, 0, 0, 0, 0, 1, 0, 1, 0, 1, 0, 1, 0, 0, 0] := by
  norm_num [compress, compressFirst, encodeBytes, encodeRLEArray, encodeRuns,
    encodeDeltaRLE, timeDeltas, addrDeltas, rawDeltas, scaledDeltas, deltasBy,
    encodeFlags, toUInt64, zigzagEncode, scaledFixed, truncQ, i64wrap, i32wrap,
    cexA, cexB, encodeVarint_lt128, Int.toNat_ofNat]
  rw [show ((9223372036854775808 : Int).toNat) % 9223372036854775808 = 0 from rfl,
    encodeVarint_lt128 0 (by norm_num)]
  rfl

theorem decompress_cex :
    decompress [2, 0, 0, 0, 0, 0, 0, 1, 0, 1, 0, 1, 0, 1, 0, 0, 0] =
    .ok [cexA, cexA] := by
  rw [decompress, if_neg (by simp)]
  norm_num [decodeVarint, decodeVarintAux, decodeRLEArray, decodeRLEloop,
    decodeDeltaRLE, zigzagDecode, toInt64, readLenBytes, readBytes, readByte,
    readOptBytes, reconstructLoop, i64wrap, i32wrap, truncQ, scaledFixed,
    cexA, cexB]

/-- C1 (counterexample): for the two-sample vector whose timestamps are
`0` and `2 ^ 62` ticks, the round trip as literally claimed fails — the
second sample comes back with timestamp `0`, an error of `2 ^ 62` ticks,
far beyond 10⁻⁶ s at any plausible tick length. -/
theorem c1_codec_roundtrip_counterexample :
    ¬ ∃ ys, decompress (compress [cexA, cexB]) = .ok ys ∧
        RoundTripMatches [cexA, cexB] ys := by
  rintro ⟨ys, h1, h2, h3⟩
  rw [compress_cex, decompress_cex] at h1
  obtain rfl : ys = [cexA, cexA] := (Except.ok.injEq _ _).mp h1.symm
  have := h3 1 (by norm_num) (by norm_num)
  have hts := this.2.2.2.2.2
  norm_num [cexA, cexB, tsToleranceTicks] at hts

/-- A second sample for the round-trip witness, with distinct timestamp,
address, raw value and name. -/
def cexW : AcquisitionSample :=
  { timestamp := 50, register_address := 3, register_name := [86, 97, 99],
    raw_value := -7, scaled_value := 0, unit := [86] }

/-- C1 (witness): the amended round-trip theorem applied to a concrete
two-sample vector with distinct addresses, raw values, timestamps and
names. -/
theorem c1_codec_roundtrip_witness :
    ([cexA, cexW].length < 2 ^ 64 ∧ (∀ s ∈ [cexA, cexW], SampleInRange s) ∧
      List.Chain' DeltasInRange [cexA, cexW]) ∧
    ∃ ys, decompress (compress [cexA, cexW]) = .ok ys ∧
      RoundTripMatches [cexA, cexW] ys := by
  have h1 : [cexA, cexW].length < 2 ^ 64 := by norm_num
  have h2 : ∀ s ∈ [cexA, cexW], SampleInRange s := by
    intro s hs
    rcases List.mem_cons.mp hs with rfl | hs2
    · norm_num [SampleInRange, cexA, scaledFixed, truncQ]
    rcases List.mem_cons.mp hs2 with rfl | hs3
    · norm_num [SampleInRange, cexW, scaledFixed, truncQ]
    · exact absurd hs3 (List.not_mem_nil s)
  have h3 : List.Chain' DeltasInRange [cexA, cexW] := by
    norm_num [List.chain'_pair, DeltasInRange, cexA, cexW, scaledFixed, truncQ]
  exact ⟨⟨h1, h2, h3⟩, c1_codec_roundtrip _ h1 h2 h3⟩

/-! ## Claim C3: decoding a truncated stream

`spec.md` §4.B: "decoders MUST reject truncated input (treated as a parse
error)".  The C++ `decodeVarint` loop exits silently at end of input
(`while (offset < data.size())`), so dropping the final byte of a
one-sample stream — the count header of the last (empty) RLE array — is
not detected: `decompress` returns the full one-sample vector instead of
signalling a parse error. -/

/-- C3: the compressed form of the one-sample vector `[cexA]` is an
eleven-byte stream ending in the empty scaled-delta array header; its
ten-byte strict prefix (the truncated stream) decompresses **successfully**
to `[cexA]` instead of producing a parse error. -/
theorem c3_truncated_stream_accepted :
    compress [cexA] = [1, 0, 0, 0, 0, 0, 0, 0, 0, 0] ++ [0] ∧
    decompress [1, 0, 0, 0, 0, 0, 0, 0, 0, 0] = .ok [cexA] := by
  constructor
  · norm_num [compress, compressFirst, encodeBytes, encodeRLEArray, encodeRuns,
      encodeDeltaRLE, timeDeltas, addrDeltas, rawDeltas, scaledDeltas, deltasBy,
      encodeFlags, toUInt64, zigzagEncode, scaledFixed, truncQ, i64wrap, i32wrap,
      cexA, encodeVarint_lt128]
  · rw [decompress, if_neg (by simp)]
    norm_num [decodeVarint, decodeVarintAux, decodeRLEArray, decodeRLEloop,
      decodeDeltaRLE, zigzagDecode, toInt64, readLenBytes, readBytes, readByte,
      readOptBytes, reconstructLoop, i64wrap, i32wrap, truncQ, scaledFixed, cexA]

/-! ## SampleBuffer (`src/cpp/src/acquisition_scheduler.cpp`, claim C2)

A 256-slot circular buffer: `push` overwrites at `head_`, advances it
modulo the capacity, and grows `size_` up to the capacity;
`getAllSamples` copies the live window in chronological order starting at
`head_` when full and at `0` otherwise. -/

structure SampleBuffer where
  /-- `buffer_`, resized to `CAPACITY` default-constructed samples. -/
  buffer : List AcquisitionSample
  /-- `head_`: next position to write. -/
  head : Nat
  /-- `size_`: current number of elements. -/
  size : Nat

/-- The constructed buffer (`head_(0), size_(0)`, 256 slots). -/
def SampleBuffer.init : SampleBuffer :=
  { buffer := List.replicate 256 default, head := 0, size := 0 }

/-- `SampleBuffer::push`. -/
def SampleBuffer.push (b : SampleBuffer) (s : AcquisitionSample) : SampleBuffer :=
  { buffer := b.buffer.set b.head s
    head := (b.head + 1) % 256
    size := if b.size < 256 then b.size + 1 else b.size }

/-- `SampleBuffer::getAllSamples`. -/
def SampleBuffer.getAllSamples (b : SampleBuffer) : List AcquisitionSample :=
  if b.size = 0 then []
  else
    (List.range b.size).map
      (fun i => b.buffer.getD (((if b.size = 256 then b.head else 0) + i) % 256)
        default)

/-- `SampleBuffer::clear`. -/
def SampleBuffer.clear (b : SampleBuffer) : SampleBuffer :=
  { b with size := 0, head := 0 }

/-- A sequence of pushes into a fresh buffer. -/
def pushAll (ps : List AcquisitionSample) : SampleBuffer :=
  ps.foldl SampleBuffer.push SampleBuffer.init

theorem getAllSamples_eq (b : SampleBuffer) :
    b.getAllSamples = (List.range b.size).map
      (fun i => b.buffer.getD (((if b.size = 256 then b.head else 0) + i) % 256)
        default) := by
  unfold SampleBuffer.getAllSamples
  split_ifs with h h2 <;> simp [h]

theorem getD_map_range {α : Type} (n j : Nat) (f : Nat → α) (d : α) (h : j < n) :
    (((List.range n).map f).getD j d) = f j := by
  rw [List.getD_eq_getElem _ _ (by simpa using h)]
  simp

theorem getD_set_ne {l : List AcquisitionSample} {m k : Nat}
    (a d : AcquisitionSample) (h : m ≠ k) :
    (l.set m a).getD k d = l.getD k d := by
  simp [List.getD_eq_getElem?_getD, List.getElem?_set_ne h]

theorem getD_set_self {l : List AcquisitionSample} {m : Nat}
    (a d : AcquisitionSample) (h : m < l.length) :
    (l.set m a).getD m d = a := by
  simp [List.getD_eq_getElem?_getD, List.getElem?_set_self h]

/-- The complete ring-buffer invariant, by induction over the push
sequence: the slot count stays 256, `head` tracks the push count modulo
the capacity, `size` saturates at the capacity, and `getAllSamples` is the
window of the last `min L 256` pushes in push order. -/
theorem pushAll_invariant (ps : List AcquisitionSample) :
    (pushAll ps).buffer.length = 256 ∧
    (pushAll ps).head = ps.length % 256 ∧
    (pushAll ps).size = min ps.length 256 ∧
    (pushAll ps).getAllSamples = ps.drop (ps.length - 256) := by
  induction ps using List.reverseRecOn with
  | nil =>
    refine ⟨?_, rfl, rfl, rfl⟩
    show (List.replicate 256 (default : AcquisitionSample)).length = 256
    rw [List.length_replicate]
  | append_singleton ps p ih =>
    obtain ⟨hlen, hhead, hsize, hget⟩ := ih
    have hpush : pushAll (ps ++ [p]) = (pushAll ps).push p := by
      unfold pushAll
      rw [List.foldl_append]
      rfl
    have hpoint : ∀ j, j < (pushAll ps).size →
        (pushAll ps).buffer.getD
          (((if (pushAll ps).size = 256 then (pushAll ps).head else 0) + j) % 256)
          default = (ps.drop (ps.length - 256)).getD j default := by
      intro j hj
      have h2 := congrArg (fun l => l.getD j default)
        ((getAllSamples_eq (pushAll ps)).symm.trans hget)
      simp only [] at h2
      rw [getD_map_range _ j _ _ hj] at h2
      exact h2
    rw [hpush]
    have hlen' : ((pushAll ps).push p).buffer.length = 256 := by
      simp [SampleBuffer.push, hlen]
    have hhead' : ((pushAll ps).push p).head = (ps ++ [p]).length % 256 := by
      simp only [SampleBuffer.push, hhead, List.length_append, List.length_cons,
        List.length_nil]
      omega
    have hsize' : ((pushAll ps).push p).size = min (ps ++ [p]).length 256 := by
      simp only [SampleBuffer.push, hsize, List.length_append, List.length_cons,
        List.length_nil]
      split_ifs <;> omega
    refine ⟨hlen', hhead', hsize', ?_⟩
    rw [getAllSamples_eq, hsize', hhead']
    simp only [List.length_append, List.length_cons, List.length_nil]
    rcases Nat.lt_or_ge ps.length 256 with hc | hc
    · -- not yet saturated: the new sample lands at slot `ps.length`
      have hsz : (pushAll ps).size = ps.length := by omega
      have hhd : (pushAll ps).head = ps.length := by
        rw [hhead, Nat.mod_eq_of_lt hc]
      have hp' : ∀ j, j < ps.length →
          (pushAll ps).buffer.getD j default = ps.getD j default := by
        intro j hj
        have hp := hpoint j (by omega)
        rw [if_neg (by omega), show ps.length - 256 = 0 by omega,
          List.drop_zero, show (0 + j) % 256 = j by omega] at hp
        exact hp
      have hmin : min (ps.length + 0 + 1) 256 = ps.length + 1 := by omega
      have hstart : (if min (ps.length + 0 + 1) 256 = 256 then
          (ps.length + 0 + 1) % 256 else 0) = 0 := by
        split_ifs with h
        · omega
        · rfl
      rw [hmin] at hstart ⊢
      rw [hstart]
      have hdrop : ps.length + 0 + 1 - 256 = 0 := by omega
      rw [hdrop, List.drop_zero]
      apply List.ext_getElem
      · simp
      intro i hi hi'
      simp only [List.length_map, List.length_range] at hi
      simp only [List.getElem_map, List.getElem_range]
      have him : (0 + i) % 256 = i := by omega
      rw [him]
      simp only [SampleBuffer.push, hhd]
      rcases Nat.lt_or_ge i ps.length with hilt | hieq
      · rw [getD_set_ne _ _ (by omega), hp' i hilt,
          List.getD_eq_getElem _ _ hilt, List.getElem_append_left hilt]
      · have hieq' : i = ps.length := by omega
        subst hieq'
        rw [getD_set_self _ _ (by omega)]
        rw [List.getElem_append_right (by omega)]
        simp
    · -- saturated: the oldest slot is overwritten, the window slides
      have hsz : (pushAll ps).size = 256 := by omega
      have hp' : ∀ j, j < 256 →
          (pushAll ps).buffer.getD (((pushAll ps).head + j) % 256) default =
            (ps.drop (ps.length - 256)).getD j default := by
        intro j hj
        have hp := hpoint j (by omega)
        rw [if_pos (by omega)] at hp
        exact hp
      have hmin : min (ps.length + 0 + 1) 256 = 256 := by omega
      rw [hmin]
      rw [if_pos rfl]
      apply List.ext_getElem
      · simp
        omega
      intro i hi hi'
      simp only [List.length_map, List.length_range] at hi
      simp only [List.getElem_map, List.getElem_range]
      simp only [SampleBuffer.push, hhead]
      rw [← List.getD_eq_getElem _ default hi']
      rcases Nat.lt_or_ge i 255 with hilt | hieq
      · have hidx : (((ps.length + (0 + 1)) % 256) + i) % 256 =
            (ps.length % 256 + (i + 1)) % 256 := by omega
        rw [hidx, getD_set_ne _ _ (by omega)]
        have hp := hp' (i + 1) (by omega)
        rw [hhead] at hp
        rw [hp]
        rw [List.getD_eq_getElem?_getD, List.getD_eq_getElem?_getD,
          List.getElem?_drop, List.getElem?_drop,
          show ps.length - 256 + (i + 1) = ps.length + (0 + 1) - 256 + i
            from by omega,
          List.getElem?_append_left (by omega)]
      · have hieq' : i = 255 := by omega
        subst hieq'
        have hidx : (((ps.length + (0 + 1)) % 256) + 255) % 256 =
            ps.length % 256 := by omega
        rw [hidx, getD_set_self _ _ (by omega)]
        rw [List.getD_eq_getElem?_getD, List.getElem?_drop,
          show ps.length + (0 + 1) - 256 + 255 = ps.length from by omega,
          List.getElem?_append_right (by omega)]
        simp

/-- C2: after any sequence of `L` pushes into a fresh `SampleBuffer`,
`size()` is `min L 256`, and `getAllSamples()` is exactly the last
`min L 256` pushed samples in push order (after wrap-around only the most
recent 256 are retained, oldest first): the suffix `ps.drop (L - 256)` of
the push sequence. -/
theorem c2_ring_buffer (ps : List AcquisitionSample) :
    (pushAll ps).size = min ps.length 256 ∧
    (pushAll ps).getAllSamples.length = min ps.length 256 ∧
    (pushAll ps).getAllSamples = ps.drop (ps.length - 256) := by
  obtain ⟨-, -, hsize, hget⟩ := pushAll_invariant ps
  refine ⟨hsize, ?_, hget⟩
  rw [hget]
  simp only [List.length_drop]
  omega

/-! ## Poll-cycle address enumeration
(`AcquisitionScheduler::performPollCycle`, claim C4)

The cycle first copies the keys of `register_configs_` — a `std::map`,
iterated in ascending key order — into `addresses_to_read`, then appends
each element of `minimum_registers_` that `std::find` does not already
locate in the vector. -/

/-- The address-collection phase of `performPollCycle`: `configKeys` are
the map keys in ascending order, then the missing minimum registers are
appended in their list order with a linear membership check. -/
def performPollCycleAddresses (configKeys minRegs : List Nat) : List Nat :=
  minRegs.foldl (fun acc a => if a ∈ acc then acc else acc ++ [a]) configKeys

/-- Foldl invariant for the address collection: membership is the union,
no duplicates appear, the configured keys stay as the exact prefix, and
everything appended afterwards is a minimum register that was not a
configured key. -/
theorem pollAddresses_spec :
    ∀ (minRegs configKeys : List Nat),
      (∀ a, a ∈ performPollCycleAddresses configKeys minRegs ↔
          a ∈ configKeys ∨ a ∈ minRegs) ∧
      (configKeys.Nodup → (performPollCycleAddresses configKeys minRegs).Nodup) ∧
      (performPollCycleAddresses configKeys minRegs).take configKeys.length =
        configKeys ∧
      (∀ a ∈ (performPollCycleAddresses configKeys minRegs).drop
          configKeys.length, a ∈ minRegs ∧ a ∉ configKeys)
  | [], ck => by
    refine ⟨by simp [performPollCycleAddresses], ?_, ?_, ?_⟩
    · intro h
      simpa [performPollCycleAddresses] using h
    · simp [performPollCycleAddresses]
    · simp [performPollCycleAddresses]
  | m :: mr, ck => by
    have hstep : performPollCycleAddresses ck (m :: mr) =
        performPollCycleAddresses (if m ∈ ck then ck else ck ++ [m]) mr := by
      unfold performPollCycleAddresses
      rw [List.foldl_cons]
    by_cases hm : m ∈ ck
    · rw [if_pos hm] at hstep
      obtain ⟨hmem, hnd, htake, hdrop⟩ := pollAddresses_spec mr ck
      rw [hstep]
      refine ⟨?_, hnd, htake, ?_⟩
      · intro a
        rw [hmem a, List.mem_cons]
        constructor
        · rintro (h | h)
          · exact Or.inl h
          · exact Or.inr (Or.inr h)
        · rintro (h | rfl | h)
          · exact Or.inl h
          · exact Or.inl hm
          · exact Or.inr h
      · intro a ha
        obtain ⟨h1, h2⟩ := hdrop a ha
        exact ⟨List.mem_cons_of_mem m h1, h2⟩
    · rw [if_neg hm] at hstep
      obtain ⟨hmem, hnd, htake, hdrop⟩ := pollAddresses_spec mr (ck ++ [m])
      rw [hstep]
      have hlen1 : ck.length + 1 ≤
          (performPollCycleAddresses (ck ++ [m]) mr).length := by
        have := congrArg List.length htake
        rw [List.length_take] at this
        simp only [List.length_append, List.length_cons, List.length_nil] at this
        omega
      refine ⟨?_, ?_, ?_, ?_⟩
      · intro a
        rw [hmem a, List.mem_append, List.mem_cons]
        simp only [List.mem_singleton, List.mem_cons]
        tauto
      · intro hndck
        refine hnd ?_
        rw [List.nodup_append]
        simp [hndck, hm]
      · have h2 : (performPollCycleAddresses (ck ++ [m]) mr).take ck.length =
            ((performPollCycleAddresses (ck ++ [m]) mr).take
              (ck ++ [m]).length).take ck.length := by
          rw [List.take_take]
          congr 1
          simp only [List.length_append, List.length_cons, List.length_nil]
          omega
        rw [h2, htake]
        exact List.take_left ck [m]
      · intro a ha
        have hsplit : (performPollCycleAddresses (ck ++ [m]) mr).drop ck.length =
            m :: (performPollCycleAddresses (ck ++ [m]) mr).drop
              (ck.length + 1) := by
          rw [List.drop_eq_getElem_cons (by omega)]
          congr 1
          have := congrArg (fun l => l.getD ck.length default) htake
          simp only [List.getD_eq_getElem?_getD] at this
          rw [List.getElem?_take_of_lt (by
              simp only [List.length_append, List.length_cons, List.length_nil]
              omega),
            List.getElem?_append_right (Nat.le_refl _)] at this
          simp only [Nat.sub_self] at this
          rw [List.getElem?_eq_getElem (by omega)] at this
          simpa using this
        rw [hsplit] at ha
        rcases List.mem_cons.mp ha with rfl | hatail
        · exact ⟨List.mem_cons_self _ _, hm⟩
        · obtain ⟨h1, h2⟩ := hdrop a (by
            simpa only [List.length_append, List.length_cons, List.length_nil,
              Nat.add_zero] using hatail)
          refine ⟨List.mem_cons_of_mem m h1, fun hack => h2 ?_⟩
          exact List.mem_append_left _ hack

/-- C4 (amended): in a poll cycle with strictly ascending configured map
keys, the addresses read are the union of the configured keys and the
minimum registers, with no duplicates; the configured keys are visited
first, in ascending order, and the remaining minimum registers are
appended after them (in their configured order), so the full visiting
sequence need not be globally ascending. -/
theorem c4_poll_addresses (configKeys minRegs : List Nat)
    (hsorted : List.Pairwise (· < ·) configKeys) :
    (∀ a, a ∈ performPollCycleAddresses configKeys minRegs ↔
        a ∈ configKeys ∨ a ∈ minRegs) ∧
    (performPollCycleAddresses configKeys minRegs).Nodup ∧
    (performPollCycleAddresses configKeys minRegs).take configKeys.length =
      configKeys ∧
    ((performPollCycleAddresses configKeys minRegs).take
      configKeys.length).Pairwise (· < ·) ∧
    (∀ a ∈ (performPollCycleAddresses configKeys minRegs).drop
        configKeys.length, a ∈ minRegs ∧ a ∉ configKeys) := by
  obtain ⟨hmem, hnd, htake, hdrop⟩ := pollAddresses_spec minRegs configKeys
  exact ⟨hmem, hnd hsorted.nodup, htake, by rw [htake]; exact hsorted, hdrop⟩

/-- C4 (counterexample): with configured key 5 and minimum register 3 the
cycle visits `[5, 3]` — the union without duplicates, but **not** in
ascending address order, refuting the claim as stated. -/
theorem c4_poll_addresses_counterexample :
    ¬ ((∀ a, a ∈ performPollCycleAddresses [5] [3] ↔ a ∈ [5] ∨ a ∈ [3]) ∧
       (performPollCycleAddresses [5] [3]).Nodup ∧
       (performPollCycleAddresses [5] [3]).Pairwise (· ≤ ·)) := by
  rintro ⟨-, -, hp⟩
  have he : performPollCycleAddresses [5] [3] = [5, 3] := by decide
  rw [he, List.pairwise_cons] at hp
  have := hp.1 3 (by simp)
  omega

/-- C4 (witness): the amended theorem at configured keys `[1, 5]` and
minimum registers `[3, 1]`, producing the visit order `[1, 5, 3]`. -/
theorem c4_poll_addresses_witness :
    List.Pairwise (· < ·) [1, 5] ∧
    ((∀ a, a ∈ performPollCycleAddresses [1, 5] [3, 1] ↔
        a ∈ [1, 5] ∨ a ∈ [3, 1]) ∧
    (performPollCycleAddresses [1, 5] [3, 1]).Nodup ∧
    (performPollCycleAddresses [1, 5] [3, 1]).take ([1, 5] : List Nat).length =
      [1, 5] ∧
    ((performPollCycleAddresses [1, 5] [3, 1]).take
      ([1, 5] : List Nat).length).Pairwise (· < ·) ∧
    (∀ a ∈ (performPollCycleAddresses [1, 5] [3, 1]).drop
        ([1, 5] : List Nat).length, a ∈ [3, 1] ∧ a ∉ [1, 5])) :=
  ⟨by decide, c4_poll_addresses [1, 5] [3, 1] (by decide)⟩

/-! ## FOTA manager (`src/cpp-esp/src/fota_manager.cpp`)

The header `fota_manager.hpp` is not under `src/`; the `FOTAState`
enumeration and the `FOTAManifest`/`FOTAProgress` structures and their
defaults are modelled from the spec (§3, §4.G). -/

/-- Modelled from the spec: the `FOTAState` enumeration of the missing
`fota_manager.hpp`, in the spec §3 declaration order
`{Idle, CheckingManifest, Downloading, Verifying, Writing, Rebooting,
Rollback, Failed}`. -/
inductive FOTAState
  | idle
  | checkingManifest
  | downloading
  | verifying
  | writing
  | rebooting
  | rollback
  | failed
  deriving DecidableEq

/-- The `(FOTAState)(int)` cast performed by `loadState`
(`doc["state"] | 0`); 0..7 name the states in declaration order (an
out-of-range value is left as `idle`, the default the file carries when
absent). -/
def stateOfInt (n : Nat) : FOTAState :=
  match n with
  | 0 => .idle
  | 1 => .checkingManifest
  | 2 => .downloading
  | 3 => .verifying
  | 4 => .writing
  | 5 => .rebooting
  | 6 => .rollback
  | 7 => .failed
  | _ => .idle

/-- `FOTAManifest` (spec §3): version, size (`u32`), sha-256 hex hash,
chunk size, derived chunk count, validity flag. -/
structure FOTAManifest where
  version : String
  size : Nat
  hash : String
  chunk_size : Nat
  total_chunks : Nat
  valid : Bool
  deriving DecidableEq

/-- Modelled from the spec: a default-constructed manifest — invalid,
zero size, the default 1024-byte chunk size, zero chunks. -/
def FOTAManifest.initial : FOTAManifest :=
  { version := "", size := 0, hash := "", chunk_size := 1024,
    total_chunks := 0, valid := false }

/-- `FOTAProgress` (spec §3). -/
structure FOTAProgress where
  state : FOTAState
  current_version : String
  new_version : String
  chunks_received : Nat
  bytes_received : Nat
  total_chunks : Nat
  total_bytes : Nat
  verified : Bool
  error_message : String
  deriving DecidableEq

/-- Modelled from the spec: a default-constructed progress record
(idle, nothing received, unverified). -/
def FOTAProgress.initial : FOTAProgress :=
  { state := .idle, current_version := "", new_version := "",
    chunks_received := 0, bytes_received := 0, total_chunks := 0,
    total_bytes := 0, verified := false, error_message := "" }

/-- The manager's mutable state: `progress_`, `manifest_`,
`chunks_downloaded_`, and the scratch image `/firmware.bin` content. -/
structure FOTAManagerState where
  progress : FOTAProgress
  manifest : FOTAManifest
  chunks_downloaded : List Bool
  firmware : List Nat
  deriving DecidableEq

/-- `FOTAManager::setState`: records the state and the error message
(empty on the no-error overload). -/
def setStateF (st : FOTAManagerState) (s : FOTAState) (err : String) :
    FOTAManagerState :=
  { st with progress := { st.progress with state := s, error_message := err } }

/-! ### Claim C5: manifest validity (`FOTAManager::fetchManifest`) -/

/-- The parsed `fota.manifest` JSON object: each field as ArduinoJson
sees it (`obj["k"] | dflt` is `Option.getD`). -/
structure ManifestJson where
  version : Option String
  size : Option Nat
  hash : Option String
  chunk_size : Option Nat
  deriving DecidableEq

/-- The manifest-field extraction of `FOTAManager::fetchManifest`
(lines 632–646): defaults `""`, `0`, `""`, `1024`; `total_chunks` is the
rounded-up quotient guarded against a zero size or chunk size; `valid`
iff the version is non-empty, the size positive and the hash
non-empty. -/
def parseManifestFields (j : ManifestJson) : FOTAManifest :=
  { version := j.version.getD ""
    size := j.size.getD 0
    hash := j.hash.getD ""
    chunk_size := j.chunk_size.getD 1024
    total_chunks :=
      if 0 < j.size.getD 0 ∧ 0 < j.chunk_size.getD 1024 then
        (j.size.getD 0 + j.chunk_size.getD 1024 - 1) / j.chunk_size.getD 1024
      else 0
    valid := !(j.version.getD "").isEmpty && decide (0 < j.size.getD 0) &&
      !(j.hash.getD "").isEmpty }

/-- C5: after `fetchManifest` parses a manifest object, the stored
manifest's `valid` flag is `true` iff its version string is non-empty,
its size is positive and its hash string is non-empty. -/
theorem c5_manifest_valid_iff (j : ManifestJson) :
    (parseManifestFields j).valid = true ↔
      (parseManifestFields j).version ≠ "" ∧
      0 < (parseManifestFields j).size ∧
      (parseManifestFields j).hash ≠ "" := by
  have hbool : ∀ s : String, (s.isEmpty = false) ↔ s ≠ "" := by
    intro s
    rw [Bool.eq_false_iff]
    exact not_congr (String.isEmpty_iff s)
  simp only [parseManifestFields, Bool.and_eq_true, Bool.not_eq_true',
    decide_eq_true_eq, hbool]
  tauto

/-! ### Claim C6: config-update register parsing
(`RemoteConfigHandler::parseConfigUpdateRequest`, lines 122–154) -/

/-- An element of the `config_update.registers` JSON array that passes
one of the two type tests of the loop (`reg.is<int>()` /
`reg.is<const char*>()`); elements of any other JSON type are skipped by
the code and are not modelled. -/
inductive ConfigRegElem
  | num (n : Nat)
  | str (s : String)
  deriving DecidableEq

/-- The name→address `if` chain of `parseConfigUpdateRequest`
(lines 134–143); an unknown name is logged and dropped. -/
def registerNameToAddress (name : String) : Option Nat :=
  if name == "voltage" then some 0
  else if name == "current" then some 1
  else if name == "frequency" then some 2
  else if name == "pv1_voltage" then some 3
  else if name == "pv2_voltage" then some 4
  else if name == "pv1_current" then some 5
  else if name == "pv2_current" then some 6
  else if name == "temperature" then some 7
  else if name == "export_power" then some 8
  else if name == "output_power" then some 9
  else none

/-- The register-array loop: numeric elements are admitted through
`reg.as<uint8_t>()` (the `% 256` narrowing), string elements through the
name chain. -/
def parseConfigRegisters (elems : List ConfigRegElem) : List Nat :=
  elems.foldl (fun acc e =>
    match e with
    | .num n => acc ++ [n % 256]
    | .str s =>
      match registerNameToAddress s with
      | some a => acc ++ [a]
      | none => acc) []

/-- Written from the claim's words, for comparison with the code: the
fixed name→address table `voltage=0, current=1, frequency=2,
pv1_voltage=3, pv2_voltage=4, pv1_current=5, pv2_current=6,
temperature=7, export_power=8, output_power=9`. -/
def registerTableSpec : List (String × Nat) :=
  [("voltage", 0), ("current", 1), ("frequency", 2), ("pv1_voltage", 3),
   ("pv2_voltage", 4), ("pv1_current", 5), ("pv2_current", 6),
   ("temperature", 7), ("export_power", 8), ("output_power", 9)]

theorem registerNameToAddress_eq_lookup (s : String) :
    registerNameToAddress s = registerTableSpec.lookup s := by
  simp only [registerNameToAddress, registerTableSpec, List.lookup]
  cases s == "voltage" <;> cases s == "current" <;> cases s == "frequency" <;>
    cases s == "pv1_voltage" <;> cases s == "pv2_voltage" <;>
    cases s == "pv1_current" <;> cases s == "pv2_current" <;>
    cases s == "temperature" <;> cases s == "export_power" <;>
    cases s == "output_power" <;> rfl

theorem parseConfigRegisters_aux (elems : List ConfigRegElem) :
    ∀ (acc : List Nat), (∀ n, ConfigRegElem.num n ∈ elems → n < 256) →
      elems.foldl (fun acc e =>
        match e with
        | .num n => acc ++ [n % 256]
        | .str s =>
          match registerNameToAddress s with
          | some a => acc ++ [a]
          | none => acc) acc =
      acc ++ (elems.map (fun e =>
        match e with
        | .num n => [n]
        | .str s => (registerTableSpec.lookup s).toList)).flatten := by
  induction elems with
  | nil => intro acc _; simp
  | cons e tl ih =>
    intro acc hnum
    rcases e with n | s
    · rw [List.foldl_cons, List.map_cons, List.flatten_cons]
      dsimp only
      have hn : n % 256 = n :=
        Nat.mod_eq_of_lt (hnum n (List.mem_cons_self _ _))
      rw [ih (acc ++ [n % 256])
        (fun k hk => hnum k (List.mem_cons_of_mem _ hk)), hn,
        List.append_assoc]
    · rw [List.foldl_cons, List.map_cons, List.flatten_cons]
      dsimp only
      rw [← registerNameToAddress_eq_lookup]
      cases hr : registerNameToAddress s with
      | none =>
        rw [ih acc (fun k hk => hnum k (List.mem_cons_of_mem _ hk))]
        simp
      | some a =>
        rw [ih (acc ++ [a]) (fun k hk => hnum k (List.mem_cons_of_mem _ hk)),
          List.append_assoc]
        rfl

/-- C6: each element of `config_update.registers` is admitted as an
address — a numeric element (in `uint8_t` range) maps to itself, and a
string element maps via the fixed table
`voltage=0 … output_power=9`; any string not in the table contributes no
address to the parsed register list. -/
theorem c6_register_parsing (elems : List ConfigRegElem)
    (hnum : (elems.all fun e =>
      match e with
      | .num n => decide (n < 256)
      | .str _ => true) = true) :
    parseConfigRegisters elems = (elems.map (fun e =>
      match e with
      | .num n => [n]
      | .str s => (registerTableSpec.lookup s).toList)).flatten := by
  have hnum' : ∀ n, ConfigRegElem.num n ∈ elems → n < 256 := by
    intro n hn
    have := List.all_eq_true.mp hnum _ hn
    exact of_decide_eq_true this
  have h := parseConfigRegisters_aux elems [] hnum'
  simpa [parseConfigRegisters] using h

/-- C6 (witness): the parsing theorem at the array
`[7, "voltage", "bogus"]`, which admits `7` and `0` and drops
`"bogus"`. -/
theorem c6_register_parsing_witness :
    (([ConfigRegElem.num 7, ConfigRegElem.str "voltage",
        ConfigRegElem.str "bogus"]).all fun e =>
      match e with
      | .num n => decide (n < 256)
      | .str _ => true) = true ∧
    parseConfigRegisters
      [ConfigRegElem.num 7, ConfigRegElem.str "voltage",
        ConfigRegElem.str "bogus"] =
    (([ConfigRegElem.num 7, ConfigRegElem.str "voltage",
        ConfigRegElem.str "bogus"]).map (fun e =>
      match e with
      | .num n => [n]
      | .str s => (registerTableSpec.lookup s).toList)).flatten :=
  ⟨by decide, c6_register_parsing _ (by decide)⟩

/-! ### Claims C7 and C8: `FOTAManager::processChunk` and
`FOTAManager::loadState` -/

/-- What one `processChunk` call proceeds to do:
`reject` is the early `return false` when not in the `DOWNLOADING` state;
`failCorrupt` is the transition to `FAILED` on an inconsistent manifest
(`total_chunks == 0` or a bitmap length mismatch);
`fetchAttempt i` is the call `fetchChunk(i)`;
`verifyAndApply` is the all-chunks-received path into verification. -/
inductive ChunkAction
  | reject
  | failCorrupt
  | fetchAttempt (i : Nat)
  | verifyAndApply
  deriving DecidableEq

/-- The chunk-selection scan of `processChunk` (lines 168–182):
the first index whose bitmap entry is still `false`.  (The in-loop bounds
check cannot fire, because the loop runs only after the bitmap length has
been checked against `total_chunks`.) -/
def findFirstMissing : List Bool → Option Nat
  | [] => none
  | b :: tl => if b then (findFirstMissing tl).map (· + 1) else some 0

/-- `FOTAManager::processChunk` (lines 154–218), up to the decision of
which outbound step to take. -/
def processChunk (st : FOTAManagerState) : FOTAManagerState × ChunkAction :=
  if st.progress.state ≠ FOTAState.downloading then (st, .reject)
  else if st.manifest.total_chunks = 0 ∨
      st.chunks_downloaded.length ≠ st.manifest.total_chunks then
    (setStateF st .failed "Corrupted manifest state", .failCorrupt)
  else
    match findFirstMissing st.chunks_downloaded with
    | none => (setStateF st .verifying "", .verifyAndApply)
    | some i => (st, .fetchAttempt i)

/-- The parsed `fota_state.json` contents (`doc["k"] | dflt` is
`Option.getD`). -/
structure StateFileJson where
  state : Option Nat
  version : Option String
  chunks_received : Option Nat
  total_chunks : Option Nat
  verified : Option Bool
  chunks : Option (List Nat)
  deriving DecidableEq

/-- `FOTAManager::loadState` (lines 807–842) applied to a freshly
constructed manager: restores the `progress_` fields and the chunk bitmap
(`chunk.as<int>() != 0`), and `manifest_.version` — but **not**
`manifest_.total_chunks`, which keeps its default-constructed value 0.
The scratch image on flash is outside the state file; it is left empty
here. -/
def loadState (f : StateFileJson) : FOTAManagerState :=
  { progress := { FOTAProgress.initial with
      state := stateOfInt (f.state.getD 0)
      chunks_received := f.chunks_received.getD 0
      total_chunks := f.total_chunks.getD 0
      verified := f.verified.getD false }
    manifest := { FOTAManifest.initial with version := f.version.getD "" }
    chunks_downloaded := (f.chunks.getD []).map (fun c => c != 0)
    firmware := [] }

theorem findFirstMissing_spec :
    ∀ (l : List Bool), false ∈ l →
      ∃ j, findFirstMissing l = some j ∧ l.getD j true = false ∧
        ∀ i < j, l.getD i true = true
  | [], h => absurd h (List.not_mem_nil false)
  | b :: tl, h => by
    cases hb : b
    · exact ⟨0, by simp [findFirstMissing], by simp, by omega⟩
    · have htl : false ∈ tl := by
        rcases List.mem_cons.mp h with hc | hc
        · exact absurd hc.symm (by simp [hb])
        · exact hc
      obtain ⟨j, h1, h2, h3⟩ := findFirstMissing_spec tl htl
      refine ⟨j + 1, ?_, by simpa using h2, ?_⟩
      · simp [findFirstMissing, h1]
      · intro i hi
        cases i with
        | zero => simp [hb]
        | succ k =>
          have := h3 k (by omega)
          simpa using this

/-- C7 (amended): in the `Downloading` state with a consistent manifest —
`total_chunks ≠ 0` and a bitmap of matching length, which after a cold
restart requires the manifest to be re-fetched, since `loadState` does not
restore `total_chunks` into the manifest — a `processChunk` call with at
least one chunk missing fetches exactly the smallest index `j` with
`chunks[j] = false`, never a chunk already marked received, and changes no
state. -/
theorem c7_resume_fetches_missing (st : FOTAManagerState)
    (hdl : st.progress.state = FOTAState.downloading)
    (hn : st.manifest.total_chunks ≠ 0)
    (hlen : st.chunks_downloaded.length = st.manifest.total_chunks)
    (hmiss : false ∈ st.chunks_downloaded) :
    ∃ j, processChunk st = (st, ChunkAction.fetchAttempt j) ∧
      st.chunks_downloaded.getD j true = false ∧
      ∀ i < j, st.chunks_downloaded.getD i true = true := by
  obtain ⟨j, h1, h2, h3⟩ := findFirstMissing_spec st.chunks_downloaded hmiss
  refine ⟨j, ?_, h2, h3⟩
  unfold processChunk
  rw [if_neg (by simp [hdl]), if_neg (by omega), h1]

/-- The state file of a mid-download reboot: `Downloading` (state 2), two
chunks in total, the first received. -/
def c7file : StateFileJson :=
  { state := some 2, version := some "1.0.1", chunks_received := some 1,
    total_chunks := some 2, verified := some false, chunks := some [1, 0] }

/-- C7 (counterexample): on the state restored by `loadState` alone — in
`Downloading`, bitmap `[true, false]`, one chunk missing — the next
`processChunk` does **not** fetch the missing chunk: it trips the
`total_chunks == 0` guard (the manifest was never re-fetched) and
transitions to `Failed`. -/
theorem c7_resume_counterexample :
    (loadState c7file).progress.state = FOTAState.downloading ∧
    (loadState c7file).chunks_downloaded = [true, false] ∧
    processChunk (loadState c7file) =
      (setStateF (loadState c7file) .failed "Corrupted manifest state",
        ChunkAction.failCorrupt) ∧
    ∀ j, (processChunk (loadState c7file)).2 ≠ ChunkAction.fetchAttempt j := by
  refine ⟨by decide, by decide, by decide, ?_⟩
  intro j h
  have hact : (processChunk (loadState c7file)).2 = ChunkAction.failCorrupt := by
    decide
  rw [hact] at h
  exact ChunkAction.noConfusion h

/-- A consistent mid-download state for the C7 witness: manifest with two
chunks, first chunk received. -/
def c7wst : FOTAManagerState :=
  { progress := { FOTAProgress.initial with state := .downloading }
    manifest := { FOTAManifest.initial with total_chunks := 2 }
    chunks_downloaded := [true, false]
    firmware := [] }

/-- C7 (witness): the amended theorem at the concrete consistent state,
fetching chunk 1 — the smallest missing index. -/
theorem c7_resume_fetches_missing_witness :
    (c7wst.progress.state = FOTAState.downloading ∧
      c7wst.manifest.total_chunks ≠ 0 ∧
      c7wst.chunks_downloaded.length = c7wst.manifest.total_chunks ∧
      false ∈ c7wst.chunks_downloaded) ∧
    ∃ j, processChunk c7wst = (c7wst, ChunkAction.fetchAttempt j) ∧
      c7wst.chunks_downloaded.getD j true = false ∧
      ∀ i < j, c7wst.chunks_downloaded.getD i true = true :=
  ⟨⟨by decide, by decide, by decide, by decide⟩,
    c7_resume_fetches_missing c7wst (by decide) (by decide) (by decide)
      (by decide)⟩

/-- C8: in every FOTA state other than `Downloading`, `processChunk`
returns `false` (the `reject` action) after logging, without crashing and
without modifying the manager's state — in particular the download
progress is untouched. -/
theorem c8_processChunk_not_downloading (st : FOTAManagerState)
    (h : st.progress.state ≠ FOTAState.downloading) :
    processChunk st = (st, ChunkAction.reject) := by
  unfold processChunk
  rw [if_pos h]

/-- C8 (witness): the rejection theorem at a concrete `Verifying`-state
manager. -/
theorem c8_processChunk_not_downloading_witness :
    ({ progress := { FOTAProgress.initial with state := .verifying },
       manifest := FOTAManifest.initial, chunks_downloaded := [false],
       firmware := [] } : FOTAManagerState).progress.state ≠
      FOTAState.downloading ∧
    processChunk
      { progress := { FOTAProgress.initial with state := .verifying },
        manifest := FOTAManifest.initial, chunks_downloaded := [false],
        firmware := [] } =
    ({ progress := { FOTAProgress.initial with state := .verifying },
       manifest := FOTAManifest.initial, chunks_downloaded := [false],
       firmware := [] }, ChunkAction.reject) :=
  ⟨by decide, c8_processChunk_not_downloading _ (by decide)⟩

/-! ### Claim C9: `FOTAManager::verifyChunkHMAC` / `FOTAManager::fetchChunk` -/

/-- The 64-character table of `base64_decode` (line 954). -/
def b64Table : List Char :=
  "ABCDEFGHIJKLMNOPQRSTUVWXYZabcdefghijklmnopqrstuvwxyz0123456789+/".toList

/-- The accumulation loop of `base64_decode` (lines 960–975): `bits` and
`bits_collected`, `=` breaks, characters outside the table are skipped
(`strchr` returning null), and each time 8 bits are collected a byte
`(bits >> bits_collected) & 0xFF` is emitted and `bits` is masked down.
Since `bits` is always below `2^bits_collected ≤ 2^12` before the shift,
the `uint32_t` `(bits << 6) | v` is exactly `bits * 64 + v`. -/
def base64_decodeAux : List Char → Nat → Nat → List Nat
  | [], _, _ => []
  | c :: rest, bits, nbits =>
    if c = '=' then []
    else
      match b64Table.findIdx? (· == c) with
      | none => base64_decodeAux rest bits nbits
      | some v =>
        if 8 ≤ nbits + 6 then
          ((bits * 64 + v) / 2 ^ (nbits + 6 - 8)) % 256 ::
            base64_decodeAux rest ((bits * 64 + v) % 2 ^ (nbits + 6 - 8))
              (nbits + 6 - 8)
        else base64_decodeAux rest (bits * 64 + v) (nbits + 6)

/-- `base64_decode` (lines 953–978) on a whole input string. -/
def base64_decode (s : String) : List Nat :=
  base64_decodeAux s.toList 0 0

/-- `FOTAManager::verifyChunkHMAC` (lines 881–892).  The security layer
is an `Option`: `none` is a null `security_` pointer; `some computeHMAC`
is a live layer whose `computeHMAC(data, psk)` (with its configured PSK
already fixed) is the given function. -/
def verifyChunkHMAC (security : Option (List Nat → String))
    (data : List Nat) (mac_hex : String) : Bool :=
  match security with
  | none => true
  | some computeHMAC => computeHMAC data == mac_hex

/-- A parsed chunk response (`doc["data"]`, `doc["mac"]`,
`doc["chunk_number"] | 0xFFFFFFFF`). -/
structure ChunkResponse where
  data : Option String
  mac : Option String
  chunk_number : Option Nat

/-- `FOTAManager::fetchChunk` (lines 657–778) from its JSON parse on:
field checks, base64 decode, HMAC check, append to the scratch image
(`saveFirmwareChunk` truncates on chunk 0, appends otherwise), bitmap and
counter updates.  HTTP transport, logging and the periodic `saveState`
are outside the modelled state. -/
def fetchChunk (security : Option (List Nat → String))
    (st : FOTAManagerState) (chunk_number : Nat) (resp : ChunkResponse) :
    Bool × FOTAManagerState :=
  if resp.data = none ∨ resp.mac = none ∨
      resp.chunk_number.getD 4294967295 ≠ chunk_number then (false, st)
  else if base64_decode (resp.data.getD "") = [] then (false, st)
  else if verifyChunkHMAC security (base64_decode (resp.data.getD ""))
      (resp.mac.getD "") = false then (false, st)
  else
    (true, { st with
      firmware := if chunk_number = 0 then base64_decode (resp.data.getD "")
                  else st.firmware ++ base64_decode (resp.data.getD "")
      chunks_downloaded := st.chunks_downloaded.set chunk_number true
      progress := { st.progress with
        chunks_received := st.progress.chunks_received + 1
        bytes_received := st.progress.bytes_received +
          (base64_decode (resp.data.getD "")).length } })

/-- C9: with a null security layer, `verifyChunkHMAC` returns `true` for
every `(data, mac)` pair, so `fetchChunk` accepts any well-formed chunk
response and writes its payload to the scratch image regardless of the
MAC; with a live security layer whose computed HMAC differs from the
claimed MAC, the same chunk is rejected. -/
theorem c9_null_security_skips_hmac (st : FOTAManagerState) (n : Nat)
    (data_b64 mac_hex : String) (f : List Nat → String)
    (hdec : base64_decode data_b64 ≠ [])
    (hmac : f (base64_decode data_b64) ≠ mac_hex) :
    (∀ (d : List Nat) (m : String), verifyChunkHMAC none d m = true) ∧
    fetchChunk none st n ⟨some data_b64, some mac_hex, some n⟩ =
      (true, { st with
        firmware := if n = 0 then base64_decode data_b64
                    else st.firmware ++ base64_decode data_b64
        chunks_downloaded := st.chunks_downloaded.set n true
        progress := { st.progress with
          chunks_received := st.progress.chunks_received + 1
          bytes_received := st.progress.bytes_received +
            (base64_decode data_b64).length } }) ∧
    fetchChunk (some f) st n ⟨some data_b64, some mac_hex, some n⟩ =
      (false, st) := by
  refine ⟨fun _ _ => rfl, ?_, ?_⟩
  · unfold fetchChunk
    rw [if_neg (by simp), if_neg (by simpa using hdec),
      if_neg (by simp [verifyChunkHMAC])]
    rfl
  · unfold fetchChunk
    rw [if_neg (by simp), if_neg (by simpa using hdec),
      if_pos (by simp [verifyChunkHMAC, hmac])]

/-- A concrete manager state for the C9 witness. -/
def c9st : FOTAManagerState :=
  { progress := { FOTAProgress.initial with state := .downloading }
    manifest := { FOTAManifest.initial with total_chunks := 2 }
    chunks_downloaded := [false, false]
    firmware := [] }

/-- C9 (witness): the theorem at the base64 payload `"QUJD"` (decoding to
`[65, 66, 67]`), claimed MAC `"zz"`, and the live layer that computes
`"00"` for every input. -/
theorem c9_null_security_skips_hmac_witness :
    (base64_decode "QUJD" ≠ [] ∧
      (fun _ : List Nat => "00") (base64_decode "QUJD") ≠ "zz") ∧
    ((∀ (d : List Nat) (m : String), verifyChunkHMAC none d m = true) ∧
    fetchChunk none c9st 0 ⟨some "QUJD", some "zz", some 0⟩ =
      (true, { c9st with
        firmware := if 0 = 0 then base64_decode "QUJD"
                    else c9st.firmware ++ base64_decode "QUJD"
        chunks_downloaded := c9st.chunks_downloaded.set 0 true
        progress := { c9st.progress with
          chunks_received := c9st.progress.chunks_received + 1
          bytes_received := c9st.progress.bytes_received +
            (base64_decode "QUJD").length } }) ∧
    fetchChunk (some (fun _ : List Nat => "00")) c9st 0
      ⟨some "QUJD", some "zz", some 0⟩ = (false, c9st)) :=
  ⟨⟨by decide, by decide⟩,
    c9_null_security_skips_hmac c9st 0 "QUJD" "zz" (fun _ => "00")
      (by decide) (by decide)⟩

/-! ### Claim C10: `FOTAManager::applyUpdate` -/

/-- The outwardly visible steps of `applyUpdate`, in order. -/
inductive OtaAction
  | openFile
  | otaBegin (size : Nat)
  | otaWrite (block : List Nat)
  | otaAbort
  | otaEnd
  | reboot

/-- The environment `applyUpdate` runs against: the scratch image file on
flash (`none` if `LittleFS.open` fails), and the `Update` OTA-partition
API (`begin` success, bytes accepted per `write` call, `end` success). -/
structure OtaEnv where
  firmwareFile : Option (List Nat)
  updateBeginOk : Bool
  updateWrite : List Nat → Nat
  updateEndOk : Bool

/-- The `HASH_BUFFER_SIZE = 4096` blocks in which `applyUpdate` streams
the firmware file (`file.read(buffer, sizeof(buffer))`). -/
def fwBlocks : List Nat → List (List Nat)
  | [] => []
  | x :: tl => (x :: tl).take 4096 :: fwBlocks ((x :: tl).drop 4096)
termination_by l => l.length
decreasing_by simp; omega

/-- The write loop of `applyUpdate` (lines 310–344): each block goes to
`Update.write`; a short write aborts the update and fails; after the
loop, `Update.end` failure fails, success moves to `Rebooting` and
restarts.  The numeric `Update.getError()` codes appended to the error
strings are abstracted away. -/
def writeBlocksAux (env : OtaEnv) (st : FOTAManagerState) :
    List (List Nat) → List OtaAction → Bool × FOTAManagerState × List OtaAction
  | [], acts =>
    if env.updateEndOk = false then
      (false, setStateF st .failed "OTA end failed", acts ++ [.otaEnd])
    else (true, setStateF st .rebooting "", acts ++ [.otaEnd, .reboot])
  | b :: rest, acts =>
    if env.updateWrite b ≠ b.length then
      (false, setStateF st .failed "Write error", acts ++ [.otaWrite b, .otaAbort])
    else writeBlocksAux env st rest (acts ++ [.otaWrite b])

/-- `FOTAManager::applyUpdate` (lines 279–374): the unverified early
return, then open the firmware file, `Update.begin`, the block write
loop, and `Update.end`.  Returns the C++ return value, the manager state,
and the trace of file/OTA-partition actions performed. -/
def applyUpdate (env : OtaEnv) (st : FOTAManagerState) :
    Bool × FOTAManagerState × List OtaAction :=
  if st.progress.verified = false then (false, st, [])
  else
    match env.firmwareFile with
    | none =>
      (false, setStateF (setStateF st .writing "") .failed
        "Cannot open firmware file", [.openFile])
    | some fw =>
      if env.updateBeginOk = false then
        (false, setStateF (setStateF st .writing "") .failed "OTA begin failed",
          [.openFile, .otaBegin fw.length])
      else
        writeBlocksAux env (setStateF st .writing "") (fwBlocks fw)
          [.openFile, .otaBegin fw.length]

/-- C10: whenever `applyUpdate` runs with the progress record's
`verified` flag false, it returns `false` immediately, leaves the whole
manager state (in particular the FOTA state) unchanged, and performs no
action: the firmware file is never opened and no byte reaches the OTA
partition. -/
theorem c10_unverified_apply_rejected (env : OtaEnv) (st : FOTAManagerState)
    (h : st.progress.verified = false) :
    applyUpdate env st = (false, st, []) := by
  unfold applyUpdate
  rw [if_pos h]

/-- The environment of the C10 witness: the file open and every OTA call
would fail, yet none is ever attempted. -/
def c10env : OtaEnv :=
  { firmwareFile := none, updateBeginOk := false,
    updateWrite := fun _ => 0, updateEndOk := false }

/-- A freshly constructed (hence unverified) manager for the C10
witness. -/
def c10st : FOTAManagerState :=
  { progress := FOTAProgress.initial, manifest := FOTAManifest.initial,
    chunks_downloaded := [], firmware := [] }

/-- C10 (witness): the rejection theorem at the concrete unverified
state. -/
theorem c10_unverified_apply_rejected_witness :
    c10st.progress.verified = false ∧
    applyUpdate c10env c10st = (false, c10st, []) :=
  ⟨rfl, c10_unverified_apply_rejected c10env c10st rfl⟩

end EcoWatt
